import Mathlib

/-!
Verification of the `ai-disk-analyzer` disk scanner against its specification.

This file gives a shallow embedding, in Lean 4, of the core scanning logic of
the repository (crates `common`, `domain-model` and `disk-scanner`), and proves
or refutes a fixed list of claims about it.

Modelling conventions:
* Rust `u64` values are modelled as `Nat`.  Where the overflow behaviour of an
  addition is the subject of a claim (the size aggregation of
  `compute_recursive_sizes`, the saturating additions of `dir_size_only`),
  the embedding models the exact `u64` semantics: `satAdd` for
  `u64::saturating_add` and `wrapAdd` for plain `+` / `Iterator::sum`
  (which wraps modulo `2 ^ 64` in release builds).  Counters and size sums in
  tree building, whose overflow no claim concerns and which cannot overflow on
  inputs a filesystem can produce, are plain `Nat` additions.
* Rust `String` values are modelled as Lean `String`; byte-wise operations of
  the source (`eq_ignore_ascii_case`, byte-lexicographic `Ord`) are modelled on
  the character list `String.data`, which is order- and equality-equivalent to
  the UTF-8 byte view used by Rust.
* `HashMap` inputs are modelled as association lists (`List (String × α)`)
  with first-match lookup; keys inserted by the modelled code are distinct, so
  first-match lookup coincides with `HashMap` semantics.
* The `rayon` parallel iterators of the source (`par_iter().map(...).collect()`)
  preserve element order and compute a pure function of each element, so they
  are modelled by sequential `List.map`.
* Progress callbacks, timing, and `eprintln` diagnostics have no effect on any
  returned value and are dropped from the embedding.
-/

namespace AiDisk

/-! ## u64 arithmetic -/

/-- Modulus of Rust `u64` arithmetic. -/
def U64MOD : Nat := 2 ^ 64

/-- Rust `u64::saturating_add`. -/
def satAdd (a b : Nat) : Nat := min (a + b) (U64MOD - 1)

/-- Rust `u64` wrapping addition: plain `+` in release builds wraps modulo
`2 ^ 64`; `Iterator::sum` for `u64` folds with this addition. -/
def wrapAdd (a b : Nat) : Nat := (a + b) % U64MOD

/-- Wrapping sum of a list of `u64` values, modelling `Iterator::sum::<u64>()`. -/
def wrapSum (l : List Nat) : Nat := l.foldl wrapAdd 0

/-! ## Error model — `crates/common/src/error.rs`

`DiskAnalyzerError` is the error enum of the repository.  The `Io` variant of
the source wraps a `std::io::Error`; the embedding keeps only its message
string, which is all the scanner ever puts into it.  Note the enum has exactly
the four variants below: there is no `ElevationRequired` variant. -/

inductive DiskAnalyzerError where
  | ioError (msg : String)
  | permissionDenied (path : String)
  | invalidPath (msg : String)
  | config (msg : String)
deriving DecidableEq

/-- Error kinds of `DiskAnalyzerError`: one per enum variant.  Two errors are
distinguishable "as an error kind" exactly when their kinds differ. -/
inductive ErrKind where
  | ioKind
  | permissionKind
  | invalidPathKind
  | configKind
deriving DecidableEq

/-- Kind (variant discriminant) of a `DiskAnalyzerError`. -/
def DiskAnalyzerError.kind : DiskAnalyzerError → ErrKind
  | .ioError _ => .ioKind
  | .permissionDenied _ => .permissionKind
  | .invalidPath _ => .invalidPathKind
  | .config _ => .configKind

/-- Payload string of a `DiskAnalyzerError` (the message / path carried by the
variant). -/
def DiskAnalyzerError.payload : DiskAnalyzerError → String
  | .ioError m => m
  | .permissionDenied p => p
  | .invalidPath m => m
  | .config m => m

/-! ## ntfs-reader errors and `to_disk_analyzer_error` — `mft_scan.rs` -/

/-- Error enum of the external `ntfs_reader` crate, with exactly the structure
that `to_disk_analyzer_error` distinguishes: the elevation variant, the I/O
variant (payload: display text of the wrapped `std::io::Error`), and all other
variants collapsed into one (payload: their display text). -/
inductive NtfsReaderError where
  | elevationError
  | ioFailure (msg : String)
  | otherFailure (msg : String)
deriving DecidableEq

/-- Embedding of `to_disk_analyzer_error` (`mft_scan.rs`): every
`NtfsReaderError` is converted to the `Io` variant of `DiskAnalyzerError`,
carrying a diagnostic message; the elevation case is distinguished only by its
message text. -/
def toDiskAnalyzerError : NtfsReaderError → DiskAnalyzerError
  | .elevationError =>
      .ioError "NTFS volume access requires elevated (admin) privileges"
  | .ioFailure io => .ioError ("MFT read I/O error: " ++ io)
  | .otherFailure e => .ioError ("MFT error: " ++ e)

/-! ## String helpers

The scanner compares and splits paths byte-wise; these helpers model those
operations on `String.data`. -/

/-- ASCII lower-casing of a character, as Rust `u8::to_ascii_lowercase` acts on
each byte.  Non-ASCII characters are unchanged. -/
def asciiLower (c : Char) : Char :=
  if 'A' ≤ c ∧ c ≤ 'Z' then Char.ofNat (c.toNat + 32) else c

/-- Rust `str::eq_ignore_ascii_case`. -/
def eqIgnoreAsciiCase (a b : String) : Bool :=
  a.data.map asciiLower == b.data.map asciiLower

/-- Rust `char::eq_ignore_ascii_case` for single characters. -/
def charEqIgnoreCase (a b : Char) : Bool :=
  asciiLower a == asciiLower b

/-- Rust `s.trim_end_matches('\\')`: drop all trailing backslashes. -/
def trimEndSep (s : String) : String :=
  ⟨(s.data.reverse.dropWhile (fun c => c == '\\')).reverse⟩

/-- Rust `s.rsplit('\\').next().unwrap_or(s)`: the substring after the last
backslash (the whole string when it has none). -/
def lastComponent (s : String) : String :=
  ⟨(s.data.reverse.takeWhile (fun c => c != '\\')).reverse⟩

/-- Number of backslashes in a string, modelling
`p.matches('\\').count()`. -/
def sepCount (s : String) : Nat :=
  s.data.countP (fun c => c == '\\')

/-- Non-strict byte-lexicographic order on strings, as Rust `Ord for str`
compares UTF-8 bytes (UTF-8 byte order agrees with code-point order, which is
the lexicographic order on `String.data`). -/
def pathLe (a b : String) : Prop := a.data ≤ b.data

/-- Strict byte-lexicographic order on strings. -/
def pathLt (a b : String) : Prop := a.data < b.data

instance : DecidableRel pathLe := fun a b =>
  inferInstanceAs (Decidable (a.data ≤ b.data))

instance : DecidableRel pathLt := fun a b =>
  inferInstanceAs (Decidable (a.data < b.data))

instance : IsTotal String pathLe := ⟨fun a b => le_total a.data b.data⟩

instance : IsTrans String pathLe :=
  ⟨fun _ _ _ h1 h2 => le_trans (α := List Char) h1 h2⟩

/-- Ordering by descending separator count, as
`sort_by_cached_key(|p| Reverse(p.matches('\\').count()))` orders paths. -/
def sepGe (a b : String) : Prop := sepCount b ≤ sepCount a

instance : DecidableRel sepGe := fun _ _ => Nat.decLe _ _

instance : IsTotal String sepGe :=
  ⟨fun a b => Or.symm (Nat.le_total (sepCount a) (sepCount b))⟩

instance : IsTrans String sepGe := ⟨fun _ _ _ h1 h2 => Nat.le_trans h2 h1⟩

/-! ## Data model — `crates/domain-model` -/

/-- Node of the result tree (`domain-model/src/file_tree.rs`). -/
inductive FileNode where
  | mk (path name : String) (size : Nat) (is_dir : Bool) (modified : Option Nat)
      (children : List FileNode)

/-- Path of a node. -/
def FileNode.path : FileNode → String
  | .mk p _ _ _ _ _ => p

/-- Name of a node. -/
def FileNode.name : FileNode → String
  | .mk _ n _ _ _ _ => n

/-- Size of a node. -/
def FileNode.size : FileNode → Nat
  | .mk _ _ s _ _ _ => s

/-- Directory flag of a node. -/
def FileNode.is_dir : FileNode → Bool
  | .mk _ _ _ d _ _ => d

/-- Modification time of a node. -/
def FileNode.modified : FileNode → Option Nat
  | .mk _ _ _ _ m _ => m

/-- Children of a node. -/
def FileNode.children : FileNode → List FileNode
  | .mk _ _ _ _ _ cs => cs

/-- Entry of the top-N largest-files list
(`domain-model/src/top_file_entry.rs`). -/
structure TopFileEntry where
  path : String
  size : Nat
  modified : Option Nat
deriving DecidableEq

/-! ## Association-list model of `HashMap` lookups -/

/-- Lookup in an association list, modelling `HashMap::get`. -/
def mapGet {α : Type} (m : List (String × α)) (k : String) : Option α :=
  List.lookup k m

/-! ## MFT record model and constants — `mft_scan.rs` -/

/-- One MFT-derived record (`struct MftRecord` in `mft_scan.rs`). -/
structure MftRecord where
  full_path : String
  size : Nat
  is_dir : Bool
  modified : Option Nat
deriving DecidableEq

/-- Depth cap of internal tree construction. -/
def MAX_DEPTH : Nat := 10

/-- Fan-out cap of internal tree construction. -/
def MAX_CHILDREN_PER_DIR : Nat := 500

/-- Depth cap of the display-pruned tree. -/
def MAX_DEPTH_RETURN : Nat := 6

/-- Fan-out cap of the display-pruned tree. -/
def MAX_CHILDREN_PER_DIR_RETURN : Nat := 250

/-- Number of top files attached to a full-scan result. -/
def TOP_FILES_FOR_RESULT : Nat := 500

/-- Directory names that are size-summed but not recursed
(`SHALLOW_DIR_NAMES` in `scanner.rs`). -/
def SHALLOW_DIR_NAMES : List String :=
  ["node_modules", ".git", ".github", ".venv", "venv", "__pycache__",
   "target", "vendor", ".npm", ".yarn", ".pnpm", "bower_components",
   "jspm_packages"]

/-- Shallow-directory name test:
`SHALLOW_DIR_NAMES.iter().any(|s| s.eq_ignore_ascii_case(name))`. -/
def isShallowName (name : String) : Bool :=
  SHALLOW_DIR_NAMES.any (fun s => eqIgnoreAsciiCase s name)

/-! ## MFT tree construction — `build_subtree_from_indices`

The source recurses on `depth`, recursing only while `depth < MAX_DEPTH` and
passing `depth + 1`; the embedding carries the equivalent fuel
`MAX_DEPTH - depth` so that the recursion is visibly bounded.  `fuel = 0`
corresponds to `depth ≥ MAX_DEPTH` (the leaf branch of the source) and
`fuel = k + 1` to `depth < MAX_DEPTH`.  Indices out of range of the records
vector never occur in the program (Rust would panic); the embedding skips
them.  The `nodes_built` / `last_reported` progress machinery does not affect
the returned value and is dropped. -/

/-- Step of the `for &idx in children_indices` loop for a shallow directory:
a childless directory node whose size is read from the recursive-size map,
falling back to the record's own size.  The triple is
`(pushed node, size contribution, count contribution)`. -/
def shallowStep (rsizes : List (String × Nat)) (rec : MftRecord) :
    FileNode × Nat × Nat :=
  let childSize := (mapGet rsizes (trimEndSep rec.full_path)).getD rec.size
  (FileNode.mk rec.full_path (lastComponent rec.full_path) childSize true
    rec.modified [], childSize, 1)

/-- Step of the loop in the out-of-fuel branch (`depth ≥ MAX_DEPTH`): a leaf
node carrying the record's own size and directory flag. -/
def leafStep (rec : MftRecord) : FileNode × Nat × Nat :=
  (FileNode.mk rec.full_path (lastComponent rec.full_path) rec.size rec.is_dir
    rec.modified [], rec.size, 1)

/-- The `for &idx in children_indices` loop of `build_subtree_from_indices`,
parameterized by the non-shallow step (recursion while `depth < MAX_DEPTH`,
`leafStep` once the depth cap is reached).  It carries accumulated size, count
and children, `continue`s on self-referential paths and on out-of-range
indices (a Rust panic, unreachable in the program), and `break`s once
`MAX_CHILDREN_PER_DIR` children were pushed. -/
def subtreeLoop (records : List MftRecord) (rsizes : List (String × Nat))
    (sh : Bool) (path : String) (nonShallow : MftRecord → FileNode × Nat × Nat) :
    List Nat → Nat → Nat → List FileNode → Nat × Nat × List FileNode
  | [], accSize, accCnt, accChildren => (accSize, accCnt, accChildren)
  | idx :: rest, accSize, accCnt, accChildren =>
    match records.get? idx with
    | none => subtreeLoop records rsizes sh path nonShallow rest
        accSize accCnt accChildren
    | some rec =>
      if eqIgnoreAsciiCase rec.full_path path then
        subtreeLoop records rsizes sh path nonShallow rest
          accSize accCnt accChildren
      else
        let step :=
          if sh && rec.is_dir && isShallowName (lastComponent rec.full_path)
          then shallowStep rsizes rec
          else nonShallow rec
        let accChildren1 := accChildren ++ [step.1]
        if MAX_CHILDREN_PER_DIR ≤ accChildren1.length then
          (accSize + step.2.1, accCnt + step.2.2, accChildren1)
        else
          subtreeLoop records rsizes sh path nonShallow rest
            (accSize + step.2.1) (accCnt + step.2.2) accChildren1

/-- Embedding of `build_subtree_from_indices` (`mft_scan.rs`), fuel form: the
source recurses only while `depth < MAX_DEPTH`, passing `depth + 1`; the
embedding carries the equivalent fuel `MAX_DEPTH - depth`, so `fuel = 0` is
the `depth ≥ MAX_DEPTH` leaf branch.  The `nodes_built` / `last_reported`
progress machinery does not affect the returned value and is dropped. -/
def buildSubtreeAux (records : List MftRecord) (index : List (String × List Nat))
    (rsizes : List (String × Nat)) (sh : Bool) :
    Nat → String → String → FileNode × Nat
  | 0, path, name =>
    let st := subtreeLoop records rsizes sh path leafStep
      ((mapGet index path).getD []) 0 0 []
    (FileNode.mk path name st.1 true none st.2.2, st.2.1 + 1)
  | fuel + 1, path, name =>
    let st := subtreeLoop records rsizes sh path
      (fun rec =>
        let r := buildSubtreeAux records index rsizes sh fuel rec.full_path
          (lastComponent rec.full_path)
        (r.1, r.1.size, r.2))
      ((mapGet index path).getD []) 0 0 []
    (FileNode.mk path name st.1 true none st.2.2, st.2.1 + 1)

/-- Embedding of `build_subtree_from_indices` with the `depth` parameter of the
source; recursion is bounded because each recursive call increments `depth`
and recursion happens only while `depth < MAX_DEPTH`. -/
def buildSubtree (records : List MftRecord) (index : List (String × List Nat))
    (rsizes : List (String × Nat)) (path name : String) (depth : Nat)
    (shallowDirs : Bool) : FileNode × Nat :=
  buildSubtreeAux records index rsizes shallowDirs (MAX_DEPTH - depth) path name

mutual

/-- Embedding of `count_nodes` (`mft_scan.rs`). -/
def countNodes : FileNode → Nat
  | .mk _ _ _ _ _ cs => if cs.isEmpty then 1 else 1 + countNodesList cs
termination_by t => sizeOf t

/-- Sum of `count_nodes` over a children list. -/
def countNodesList : List FileNode → Nat
  | [] => 0
  | c :: rest => countNodes c + countNodesList rest
termination_by l => sizeOf l

end

/-- Embedding of `build_tree_from_mft_records` (`mft_scan.rs`).  The source
returns `Ok` unconditionally; the embedding returns the triple
`(root, file_count, total_size)` directly.  An out-of-range direct child index
(a Rust panic, unreachable in the program) yields a dummy node. -/
def buildTreeFromMftRecords (records : List MftRecord)
    (index : List (String × List Nat)) (rsizes : List (String × Nat))
    (volumeRootTrim volumeRootKey rootName rootPathStr : String)
    (shallowDirs : Bool) : FileNode × Nat × Nat :=
  let rootRecord := records.find?
    (fun r => eqIgnoreAsciiCase (trimEndSep r.full_path) volumeRootTrim)
  let rootSize := (rootRecord.map (fun r => r.size)).getD 0
  let rootModified := (rootRecord.map (fun r => r.modified)).getD none
  let directIndices :=
    match mapGet index volumeRootKey with
    | some v => v
    | none =>
      match mapGet index volumeRootTrim with
      | some v => v
      | none =>
        match index.find? (fun (e : String × List Nat) =>
            eqIgnoreAsciiCase e.1 volumeRootKey
            || eqIgnoreAsciiCase e.1 volumeRootTrim) with
        | some e => e.2
        | none => []
  let childNodes := directIndices.map (fun idx =>
    match records.get? idx with
    | none => FileNode.mk "" "" 0 false none []
    | some rec =>
      let name := lastComponent rec.full_path
      let isShallow := shallowDirs && rec.is_dir && isShallowName name
      if isShallow then
        FileNode.mk rec.full_path name
          ((mapGet rsizes (trimEndSep rec.full_path)).getD rec.size) true
          rec.modified []
      else
        (buildSubtree records index rsizes rec.full_path name 1 shallowDirs).1)
  let totalSize := rootSize + (childNodes.map FileNode.size).sum
  let fileCount := 1 + (childNodes.map countNodes).sum
  (FileNode.mk rootPathStr rootName totalSize true rootModified childNodes,
    fileCount, totalSize)

/-! ## Display pruning — `prune_tree_for_display` -/

/-- Descending-size order used by `children.sort_by(|a, b| b.size.cmp(&a.size))`. -/
def szGe (a b : FileNode) : Prop := b.size ≤ a.size

instance : DecidableRel szGe := fun _ _ => Nat.decLe _ _

instance : IsTotal FileNode szGe :=
  ⟨fun a b => Or.symm (Nat.le_total a.size b.size)⟩

instance : IsTrans FileNode szGe := ⟨fun _ _ _ h1 h2 => Nat.le_trans h2 h1⟩

/-- Embedding of `prune_tree_for_display` (`mft_scan.rs`), fuel form: the
source recurses on `depth`, stripping children at `depth ≥ MAX_DEPTH_RETURN`
and otherwise sorting-and-truncating the children list only when it exceeds
`MAX_CHILDREN_PER_DIR_RETURN`; the fuel is `MAX_DEPTH_RETURN - depth`. -/
def pruneAux : Nat → FileNode → FileNode
  | 0, .mk p n s d m _ => .mk p n s d m []
  | fuel + 1, .mk p n s d m cs =>
    let cs1 := if MAX_CHILDREN_PER_DIR_RETURN < cs.length then
        (List.insertionSort szGe cs).take MAX_CHILDREN_PER_DIR_RETURN
      else cs
    .mk p n s d m (cs1.map (fun c => pruneAux fuel c))

/-- Embedding of `prune_tree_for_display` with the `depth` parameter of the
source. -/
def pruneTreeForDisplay (root : FileNode) (depth : Nat) : FileNode :=
  pruneAux (MAX_DEPTH_RETURN - depth) root

/-! ## Depth-bound predicate

`withinDepth n t = true` states that every node of `t` at depth `n` from `t`
has no children, i.e. no node of `t` lies strictly deeper than `n`. -/

/-- Depth bound on a tree, by fuel. -/
def withinDepth : Nat → FileNode → Bool
  | 0, t => t.children.isEmpty
  | n + 1, t => t.children.all (fun c => withinDepth n c)

/-- Records with a two-cycle in the parent links: the index lists the record
of `C:\b` as a child of `C:\a` and vice versa. -/
def cycRecords : List MftRecord :=
  [⟨"C:\\a", 0, true, none⟩, ⟨"C:\\b", 0, true, none⟩]

/-- Child index with a two-cycle `C:\a ↦ C:\b ↦ C:\a`. -/
def cycIndex : List (String × List Nat) :=
  [("C:\\a", [1]), ("C:\\b", [0])]

/-- Records with a direct self-loop: `C:\A` is listed as its own child, with
paths differing only in ASCII case. -/
def selfRecords : List MftRecord := [⟨"C:\\A", 0, true, none⟩]

/-- Child index with a self-loop at `C:\a` (case-insensitively). -/
def selfIndex : List (String × List Nat) := [("C:\\a", [0])]

/-- Records of a volume whose only entry is the file `C:\a.txt` of size 5. -/
def c1Records : List MftRecord := [⟨"C:\\a.txt", 5, false, none⟩]

/-- Child index produced by the record indexer for `c1Records`: the file is a
child of the root key `C:`. -/
def c1Index : List (String × List Nat) := [("C:", [0])]

/-- Recursive-size map as the size aggregator produces for `c1Records`. -/
def c1Rsizes : List (String × Nat) := [("C:", 5), ("C:\\a.txt", 5)]

/-- Refinement of one tree by another: the root's `path`, `name`, `size` and
`is_dir` agree, and every child of the first corresponds to some child of the
second, recursively.  The display-pruned tree refines the input tree in this
sense: every surviving node is an unchanged input node. -/
def NodeRefines (u t : FileNode) : Prop :=
  u.path = t.path ∧ u.name = t.name ∧ u.size = t.size ∧ u.is_dir = t.is_dir
    ∧ ∀ c ∈ u.children, ∃ c0 ∈ t.children, NodeRefines c c0
termination_by sizeOf u
decreasing_by
  have h : c ∈ u.children := by assumption
  cases u with
  | mk p n s d m cs =>
    have h2 := List.sizeOf_lt_of_mem h
    simp only [FileNode.mk.sizeOf_spec]
    simp only [FileNode.children] at h2
    omega

/-- Input refuting the sortedness part of claim C8: a root whose two children
arrive in ascending size order and are few enough that the pruner leaves them
untouched. -/
def c8Tree : FileNode :=
  .mk "r" "r" 3 true none
    [.mk "r/a" "a" 1 false none [], .mk "r/b" "b" 2 false none []]

/-- Tree with 251 identical children, exceeding the display fan-out cap. -/
def c8Big : FileNode :=
  .mk "r" "r" 251 true none
    (List.replicate 251 (FileNode.mk "r/x" "x" 1 false none []))

/-! ## Size aggregation — `compute_recursive_sizes` -/

/-- Rust `Vec::dedup`: collapse runs of consecutive equal elements to a single
element. -/
def dedupConsec : List String → List String
  | [] => []
  | [a] => [a]
  | a :: b :: rest =>
      if a = b then dedupConsec (b :: rest) else a :: dedupConsec (b :: rest)

/-- Path list that `compute_recursive_sizes` iterates: the trimmed record
paths, with the volume root appended when no record matches it
case-insensitively, sorted, deduplicated, then stably re-sorted by descending
backslash count. -/
def sortedPaths (records : List MftRecord) (volumeRootTrim : String) :
    List String :=
  let paths0 := records.map (fun r => trimEndSep r.full_path)
  let paths1 :=
    if paths0.any (fun p => eqIgnoreAsciiCase p volumeRootTrim) then paths0
    else paths0 ++ [volumeRootTrim]
  let paths2 := dedupConsec (List.insertionSort pathLe paths1)
  List.insertionSort sepGe paths2

/-- Child-index key used for a path: the volume-root key when the path is the
volume root (case-insensitively), the path itself otherwise. -/
def crsKey (volumeRootTrim volumeRootKey p : String) : String :=
  if eqIgnoreAsciiCase p volumeRootTrim then volumeRootKey else p

/-- Child indices consulted for a path by `compute_recursive_sizes`. -/
def childIndicesOf (childIndex : List (String × List Nat))
    (volumeRootTrim volumeRootKey p : String) : List Nat :=
  (mapGet childIndex (crsKey volumeRootTrim volumeRootKey p)).getD []

/-- Contribution of child index `i` to a child sum, looked up in the map `m`:
the recursive size recorded for the child record's trimmed path, 0 when
absent.  An out-of-range index (a Rust panic, unreachable in the program)
contributes 0. -/
def childValue (records : List MftRecord) (m : List (String × Nat))
    (i : Nat) : Nat :=
  match records.get? i with
  | some r => (mapGet m (trimEndSep r.full_path)).getD 0
  | none => 0

/-- One step of the `for path in paths` loop of `compute_recursive_sizes`:
insert `recursive[path] = direct[path].saturating_add(child_sum)` where
`child_sum` is the plain (wrapping) `u64` sum of the children's recursive
sizes. -/
def crsStep (records : List MftRecord) (childIndex : List (String × List Nat))
    (directSizes : List (String × Nat)) (volumeRootTrim volumeRootKey : String)
    (acc : List (String × Nat)) (path : String) : List (String × Nat) :=
  let direct := (mapGet directSizes path).getD 0
  let childSum :=
    wrapSum ((childIndicesOf childIndex volumeRootTrim volumeRootKey path).map
      (childValue records acc))
  (path, satAdd direct childSum) :: acc

/-- Embedding of `compute_recursive_sizes` (`mft_scan.rs`). -/
def computeRecursiveSizes (records : List MftRecord)
    (childIndex : List (String × List Nat)) (directSizes : List (String × Nat))
    (volumeRootTrim volumeRootKey : String) : List (String × Nat) :=
  (sortedPaths records volumeRootTrim).foldl
    (crsStep records childIndex directSizes volumeRootTrim volumeRootKey) []

/-- Decidable form of "the record at index `i`, when it exists, lies strictly
deeper than path `p` by separator count". -/
def childDeeper (records : List MftRecord) (p : String) (i : Nat) : Bool :=
  match records.get? i with
  | some r => decide (sepCount p < sepCount (trimEndSep r.full_path))
  | none => true

/-- Claim C3 counterexample input: a directory `C:\a` holding two files of
`2^63` bytes each (a malformed-record scenario the saturating arithmetic is
meant to tolerate). -/
def c3Records : List MftRecord :=
  [⟨"C:\\a", 0, true, none⟩, ⟨"C:\\a\\x", 2 ^ 63, false, none⟩,
   ⟨"C:\\a\\y", 2 ^ 63, false, none⟩]

/-- Child index for `c3Records`. -/
def c3Index : List (String × List Nat) := [("C:", [0]), ("C:\\a", [1, 2])]

/-- Direct-size map for `c3Records`. -/
def c3Direct : List (String × Nat) :=
  [("C:\\a", 0), ("C:\\a\\x", 2 ^ 63), ("C:\\a\\y", 2 ^ 63)]

/-! ## Filesystem model for the generic walker — `scanner.rs`

The walker reads the filesystem through `std::fs::metadata`,
`std::fs::read_dir` and directory-entry metadata.  The model is a tree in
which each node either is a plain file, or fails its metadata read with a
given error, or is a directory whose listing either fails with a given error
or yields a list of child nodes.  Paths are assembled as
`parent ++ "/" ++ name`, standing for `entry.path()`.  The message carried by
a wrapped `std::io::Error` is OS text the model cannot know; it is the fixed
string `osErrText`. -/

/-- Error kind of a modelled filesystem operation. -/
inductive FsErr where
  | permissionDenied
  | otherErr
deriving DecidableEq

/-- Modelled filesystem subtree. -/
inductive FsNode where
  | file (name : String) (size : Nat) (modified : Option Nat)
  | badMeta (name : String) (e : FsErr)
  | dir (name : String) (listErr : Option FsErr) (entries : List FsNode)
      (modified : Option Nat)

/-- Name of a filesystem node (`entry.file_name()`). -/
def fsName : FsNode → String
  | .file n _ _ => n
  | .badMeta n _ => n
  | .dir n _ _ _ => n

/-- Result of `std::fs::metadata`. -/
structure MetaInfo where
  isDir : Bool
  len : Nat
  modified : Option Nat

/-- Modelled `std::fs::metadata`: fails on a `badMeta` node, otherwise reports
the directory flag, length and modification time.  Directory inode lengths
are irrelevant to the walker (it uses `len` only for files) and read as 0. -/
def metadataOf : FsNode → Except FsErr MetaInfo
  | .file _ s m => .ok ⟨false, s, m⟩
  | .badMeta _ e => .error e
  | .dir _ _ _ m => .ok ⟨true, 0, m⟩

/-- Modelled `path.is_dir()`: metadata succeeded and reports a directory. -/
def isDirB : FsNode → Bool
  | .dir _ _ _ _ => true
  | _ => false

/-- Modelled `entry.metadata().map(|m| m.len()).unwrap_or(0)`. -/
def fileLenOrZero : FsNode → Nat
  | .file _ s _ => s
  | _ => 0

/-- Modelled `entry.metadata().ok().and_then(|m| m.modified().ok())...`. -/
def entryModifiedOf : FsNode → Option Nat
  | .file _ _ m => m
  | .badMeta _ _ => none
  | .dir _ _ _ m => m

/-- Message text of a wrapped `std::io::Error` (OS-dependent; fixed in the
model). -/
def osErrText : String := "os error"

/-- Map a filesystem error at `path` to a `DiskAnalyzerError`, as both
`dir_size_only` and `build_tree` do:
`PermissionDenied -> DiskAnalyzerError::PermissionDenied(path)`, anything
else to `DiskAnalyzerError::Io`. -/
def mapFsErr (path : String) : FsErr → DiskAnalyzerError
  | .permissionDenied => .permissionDenied path
  | .otherErr => .ioError osErrText

mutual

/-- Embedding of `dir_size_only` (`scanner.rs`): size-only walk of a
directory.  A permission-denied listing yields `Ok(0)`; any other listing
failure is an I/O error; `read_dir` on a non-directory (never reached by the
program, which guards with `is_dir`) fails as an I/O error.  The counter and
progress callback do not affect the returned value and are dropped. -/
def dirSizeOnly : FsNode → Except DiskAnalyzerError Nat
  | .dir _ (some .permissionDenied) _ _ => .ok 0
  | .dir _ (some .otherErr) _ _ => .error (.ioError osErrText)
  | .dir _ none entries _ => .ok (dirSizeList entries 0)
  | .file _ _ _ => .error (.ioError osErrText)
  | .badMeta _ _ => .error (.ioError osErrText)
termination_by structural n => n

/-- Entry loop of `dir_size_only`: directories contribute their recursive
size-only total — with errors of the recursive call silently ignored
(`if let Ok(size) = ...`) — and other entries contribute their metadata
length, 0 when unreadable; all additions saturate. -/
def dirSizeList : List FsNode → Nat → Nat
  | [], total => total
  | c :: rest, total =>
    if isDirB c then
      match dirSizeOnly c with
      | .ok s => dirSizeList rest (satAdd total s)
      | .error _ => dirSizeList rest total
    else dirSizeList rest (satAdd total (fileLenOrZero c))
termination_by structural l _ => l

end

/-- Sibling order of the walker
(`entries.sort_by(...)` in `build_tree`): directories before
non-directories, ties broken by byte-lexicographic file-name order.
`entKeyLe a b` holds when `a` need not come after `b`. -/
def entKeyLe (a b : FsNode) : Prop :=
  (isDirB a = true ∧ isDirB b = false)
  ∨ (isDirB a = isDirB b ∧ pathLe (fsName a) (fsName b))

instance : DecidableRel entKeyLe := fun a b => by
  unfold entKeyLe
  infer_instance

instance : IsTotal FsNode entKeyLe := by
  constructor
  intro a b
  unfold entKeyLe
  cases ha : isDirB a <;> cases hb : isDirB b
  · rcases le_total (fsName a).data (fsName b).data with h | h
    · exact Or.inl (Or.inr ⟨rfl, h⟩)
    · exact Or.inr (Or.inr ⟨rfl, h⟩)
  · exact Or.inr (Or.inl ⟨rfl, rfl⟩)
  · exact Or.inl (Or.inl ⟨rfl, rfl⟩)
  · rcases le_total (fsName a).data (fsName b).data with h | h
    · exact Or.inl (Or.inr ⟨rfl, h⟩)
    · exact Or.inr (Or.inr ⟨rfl, h⟩)

instance : IsTrans FsNode entKeyLe := by
  constructor
  intro a b c hab hbc
  unfold entKeyLe at hab hbc ⊢
  rcases hab with ⟨ha, hb⟩ | ⟨hab, hnab⟩ <;>
    rcases hbc with ⟨hb2, hc⟩ | ⟨hbc2, hnbc⟩
  · rw [hb] at hb2
    exact absurd hb2 (by simp)
  · exact Or.inl ⟨ha, hbc2 ▸ hb⟩
  · exact Or.inl ⟨hab ▸ hb2, hc⟩
  · exact Or.inr ⟨hab.trans hbc2, le_trans (α := List Char) hnab hnbc⟩

/-- Modelled `std::fs::read_dir`: succeeds with the children of a directory
whose listing is intact, fails with the listing error otherwise; on a
non-directory (never reached by the program) it fails as a non-permission
error. -/
def readDirOf : FsNode → Except FsErr (List FsNode)
  | .dir _ none entries _ => .ok entries
  | .dir _ (some e) _ _ => .error e
  | .file _ _ _ => .error .otherErr
  | .badMeta _ _ => .error .otherErr

/-- Combine the per-child results collected by `build_tree`'s parallel map,
as its sequential `for r in results { let (node, cnt) = r?; ... }` loop does:
the first error aborts; otherwise sizes and counts are summed and the child
nodes are kept in order. -/
def combineResults :
    List (Except DiskAnalyzerError (FileNode × Nat)) →
      Except DiskAnalyzerError (Nat × Nat × List FileNode)
  | [] => .ok (0, 0, [])
  | r :: rest =>
    match r with
    | .error e => .error e
    | .ok (n, c) =>
      match combineResults rest with
      | .error e => .error e
      | .ok (s, cnt, ns) => .ok (n.size + s, c + cnt, n :: ns)

/-- Per-child closure of the parallel map in `build_tree`, parameterized over the
recursive call made in its non-shallow branch (`build_tree` at `depth + 1`):
a shallow-named directory gets a size-only walk and becomes a childless
directory node (its hypothetical permission failure a marker node — dead
code, since `dir_size_only` converts that case to `Ok(0)`); any other child
is recursed into, with a permission failure of the recursion converted to a
childless marker node of size 0 whose name carries the `[无权限]` suffix, and
any other failure propagated. -/
def processEntryG (shallow : Bool)
    (buildF : FsNode → String → String → Except DiskAnalyzerError
      (FileNode × Nat))
    (parentPath : String) (c : FsNode) :
    Except DiskAnalyzerError (FileNode × Nat) :=
  let childName := fsName c
  let childPath := parentPath ++ "/" ++ childName
  let entryModified := entryModifiedOf c
  if isDirB c = true ∧ shallow = true ∧ isShallowName childName = true then
    match dirSizeOnly c with
    | .ok s => .ok (FileNode.mk childPath childName s true entryModified [], 1)
    | .error (.permissionDenied _) =>
        .ok (FileNode.mk childPath (childName ++ " [无权限]") 0 true none [], 0)
    | .error e => .error e
  else
    match buildF c childPath childName with
    | .ok r => .ok r
    | .error (.permissionDenied _) =>
        .ok (FileNode.mk childPath (childName ++ " [无权限]") 0 (isDirB c)
          none [], 0)
    | .error e => .error e

/-- Embedding of `build_tree` (`scanner.rs`), fuel form: the source recurses
only while `depth < MAX_DEPTH`, passing `depth + 1`; the embedding carries
the equivalent fuel `MAX_DEPTH - depth`, so `fuel = 0` makes the branch
condition `is_dir && depth < MAX_DEPTH` false (the leaf branch) and
`fuel = k + 1` reduces it to `is_dir`.  Metadata errors are mapped
(`PermissionDenied(path)` / `Io`); a directory below the depth cap has its
listing read, sorted (directories first, then by name), truncated to
`MAX_CHILDREN_PER_DIR` and processed child by child; the first child error
aborts, otherwise sizes/counts accumulate.  A file, or a directory at the
depth cap, is a leaf carrying its metadata length (0 for directories).
Counter and progress callback are dropped. -/
def buildTreeAux (shallow : Bool) :
    Nat → FsNode → String → String →
      Except DiskAnalyzerError (FileNode × Nat)
  | 0, node, path, name =>
    match metadataOf node with
    | .error e => .error (mapFsErr path e)
    | .ok mi =>
      .ok (FileNode.mk path name (if mi.isDir then 0 else mi.len) mi.isDir
        mi.modified [], if mi.isDir then 0 else 1)
  | fuel + 1, node, path, name =>
    match metadataOf node with
    | .error e => .error (mapFsErr path e)
    | .ok mi =>
      if mi.isDir = true then
        match readDirOf node with
        | .error e => .error (mapFsErr path e)
        | .ok entries =>
          let sorted := (List.insertionSort entKeyLe entries).take
            MAX_CHILDREN_PER_DIR
          let results := sorted.map (processEntryG shallow
            (fun c2 p2 n2 => buildTreeAux shallow fuel c2 p2 n2) path)
          match combineResults results with
          | .error e => .error e
          | .ok (s, cnt, ns) =>
            .ok (FileNode.mk path name ((if mi.isDir then 0 else mi.len) + s)
              mi.isDir mi.modified ns, (if mi.isDir then 0 else 1) + cnt)
      else
        .ok (FileNode.mk path name (if mi.isDir then 0 else mi.len) mi.isDir
          mi.modified [], if mi.isDir then 0 else 1)

/-- Embedding of `build_tree` with the `depth` parameter of the source. -/
def buildTree (node : FsNode) (path name : String) (depth : Nat)
    (shallow : Bool) : Except DiskAnalyzerError (FileNode × Nat) :=
  buildTreeAux shallow (MAX_DEPTH - depth) node path name

/-- Per-child closure of `build_tree` at a given depth. -/
def processEntry (c : FsNode) (parentPath : String) (depth : Nat)
    (shallow : Bool) : Except DiskAnalyzerError (FileNode × Nat) :=
  processEntryG shallow
    (fun c2 p2 n2 => buildTree c2 p2 n2 (depth + 1) shallow) parentPath c

/-- Embedding of `scan_path_with_progress` (`scanner.rs`) after path
normalization and canonicalization (OS operations outside the model): build
the tree from the root, and return `(root, file_count, total_size)` with
`total_size = root.size`. -/
def scanPathModel (fs : FsNode) (rootPath rootName : String) (shallow : Bool) :
    Except DiskAnalyzerError (FileNode × Nat × Nat) :=
  match buildTree fs rootPath rootName 0 shallow with
  | .error e => .error e
  | .ok (root, cnt) => .ok (root, cnt, root.size)

/-- Directory with three entries, listed out of order: a file `b`, a
subdirectory `a`, a file `a`. -/
def w9fs : FsNode :=
  .dir "r" none
    [.file "b" 1 none, .dir "a" none [] none, .file "a" 2 none] none

/-- Entries of `w9fs`. -/
def w9entries : List FsNode :=
  [.file "b" 1 none, .dir "a" none [] none, .file "a" 2 none]

/-- Tree the walker builds for `w9fs`: the subdirectory first, then the files
in name order. -/
def w9root : FileNode :=
  .mk "r" "r" 3 true none
    [.mk "r/a" "a" 0 true none [],
     .mk "r/a" "a" 2 false none [],
     .mk "r/b" "b" 1 false none []]

/-! ## The walker's count law -/

mutual

/-- Number of plain files in a filesystem subtree. -/
def countFiles : FsNode → Nat
  | .file _ _ _ => 1
  | .badMeta _ _ => 0
  | .dir _ _ es _ => countFilesList es
termination_by structural n => n

/-- Number of plain files under a list of entries. -/
def countFilesList : List FsNode → Nat
  | [] => 0
  | c :: rest => countFiles c + countFilesList rest
termination_by structural l => l

end

mutual

/-- Clean filesystem within the walker's caps: no metadata or listing errors,
every directory has at most `MAX_CHILDREN_PER_DIR` entries, and no directory
lies at the depth cap (whose subtree the walker would not enter). -/
def cleanFs : Nat → FsNode → Bool
  | _, .file _ _ _ => true
  | _, .badMeta _ _ => false
  | 0, .dir _ _ _ _ => false
  | _ + 1, .dir _ (some _) _ _ => false
  | fuel + 1, .dir _ none es _ =>
      decide (es.length ≤ MAX_CHILDREN_PER_DIR) && cleanFsList fuel es
termination_by structural _ n => n

/-- Clean entries, one fuel level down. -/
def cleanFsList : Nat → List FsNode → Bool
  | _, [] => true
  | fuel, c :: rest => cleanFs fuel c && cleanFsList fuel rest
termination_by structural _ l => l

end

/-- Fs with a single file under the scanned root. -/
def c2fs : FsNode := .dir "r" none [.file "a.txt" 5 none] none

/-- Fs for C4: under the shallow directory `node_modules`, a nested directory
whose listing fails with a non-permission I/O error, next to a 7-byte file. -/
def c4fs : FsNode :=
  .dir "r" none
    [.dir "node_modules" none
      [.dir "x" (some FsErr.otherErr) [] none, .file "f" 7 none] none] none

/-! ## Top-N file scan — `scan_volume_mft_top_files` and
`build_top_files_from_records` (`mft_scan.rs`)

Both functions consume the same MFT enumeration (`mft.iterate_files`), whose
per-record payload is modelled by `FileInfo` below.  The bounded min-heap
`BinaryHeap<Reverse<(u64, String, Option<u64>)>>` is modelled by the
ascending-sorted list of its multiset; `push` is ordered insertion and `pop`
removes the head (the minimum).  The pushed tuple `(size, full_path,
modified)` is represented throughout by the `TopFileEntry` it is later
drained into, ordered by the same lexicographic (size, path, modified)
comparison. -/

/-- Per-record information delivered by the MFT enumeration
(`FileInfo::with_cache`): raw path string, on-disk size, directory flag, and
modification time as a unix timestamp (`OffsetDateTime::unix_timestamp`,
zero or negative for times at or before 1970). -/
structure FileInfo where
  path : String
  size : Nat
  is_directory : Bool
  modified : Option Int

/-- Modification-time mapping applied by both scan closures:
`info.modified.and_then(|t| { let s = t.unix_timestamp();
if s > 0 { Some(s as u64) } else { None } })`. -/
def modifiedOf : Option Int → Option Nat
  | none => none
  | some s => if 0 < s then some s.toNat else none

/-- `s.trim_end_matches('\\')` on a character list. -/
def trimBackslashEnd (l : List Char) : List Char :=
  (l.reverse.dropWhile (fun c => c == '\\')).reverse

/-- `s.replace('/', "\\")` on a character list. -/
def slashToBackslash (l : List Char) : List Char :=
  l.map (fun c => if c == '/' then '\\' else c)

/-- Embedding of `normalize_ntfs_path` (`mft_scan.rs`): rewrite
`\\.\X:...`, `\\?\X:...` or `x:...` forms to `X:\rest` (or `X:\` for the
volume root), and return any other shape unchanged.  The source indexes by
bytes; every sliced prefix here (`\\.\X:`, `\\?\`, a drive letter and a
colon) is ASCII, and each byte-level guard succeeds exactly when the
character-level guard does, so the character-list embedding agrees with the
byte-level original. -/
def normalizeNtfsPath (pathStr drive : String) : String :=
  let ps := slashToBackslash (trimBackslashEnd pathStr.data)
  let driveColon := drive.data ++ [':']
  let pfx := ('\\' :: '\\' :: '.' :: '\\' :: drive.data) ++ [':']
  if pfx.isPrefixOf ps then
    let rest := (ps.drop pfx.length).dropWhile (fun c => c == '\\')
    if rest.isEmpty then ⟨driveColon ++ ['\\']⟩
    else ⟨driveColon ++ '\\' :: rest⟩
  else if ['\\', '\\', '?', '\\'].isPrefixOf ps ∧ 6 ≤ ps.length then
    let rest0 := ps.drop 4
    if driveColon.isPrefixOf rest0 then
      let rest := (rest0.drop 2).dropWhile (fun c => c == '\\')
      if rest.isEmpty then ⟨driveColon ++ ['\\']⟩
      else ⟨driveColon ++ '\\' :: rest⟩
    else ⟨ps⟩
  else if 2 ≤ ps.length ∧ ps.getD 1 ' ' = ':' then
    if (match drive.data.head? with
        | some d => charEqIgnoreCase (ps.headD ' ') d
        | none => false) then
      let after := (ps.drop 2).dropWhile (fun c => c == '\\')
      if after.isEmpty then ⟨driveColon ++ ['\\']⟩
      else ⟨driveColon ++ '\\' :: after⟩
    else ⟨ps⟩
  else ⟨ps⟩

/-- Embedding of `path_under_volume_ascii` (`mft_scan.rs`): ASCII
case-insensitive prefix match of `path` against the trimmed volume root
(`"X:"`), requiring a backslash right after the prefix unless the whole path
equals it.  The byte-level `is_char_boundary` guard of the source is vacuous
in the character model: it can only fail when the byte prefix comparison
below would fail as well. -/
def pathUnderVolumeAscii (path volTrim : String) : Bool :=
  if eqIgnoreAsciiCase path volTrim then true
  else
    let tl := volTrim.data.length
    if path.data.length ≤ tl then false
    else if (path.data.drop tl).headD ' ' ≠ '\\' then false
    else ((path.data.take tl).zip volTrim.data).all
      (fun pr => charEqIgnoreCase pr.1 pr.2)

/-- Rust `Ord` on `Option<u64>`: `None` precedes `Some`. -/
def optNatLe : Option Nat → Option Nat → Prop
  | none, _ => True
  | some _, none => False
  | some a, some b => a ≤ b

instance : DecidableRel optNatLe := fun a b =>
  match a, b with
  | none, _ => isTrue trivial
  | some _, none => isFalse (fun h => h)
  | some x, some y => Nat.decLe x y

/-- Rust `Ord` on the heap tuple `(u64, String, Option<u64>)`: lexicographic
on (size, path, modified), with byte order on the path. -/
def heapLe (a b : TopFileEntry) : Prop :=
  a.size < b.size
  ∨ (a.size = b.size
    ∧ (pathLt a.path b.path
      ∨ (a.path = b.path ∧ optNatLe a.modified b.modified)))

instance : DecidableRel heapLe := fun a b => by
  unfold heapLe
  infer_instance

/-- `heap.push(e)`, keeping the heap as the ascending-sorted list of its
multiset. -/
def heapPush (h : List TopFileEntry) (e : TopFileEntry) : List TopFileEntry :=
  List.orderedInsert heapLe e h

/-- `while heap.len() > n { heap.pop(); }`: pop the minimum (the head of the
ascending list) while more than `n` elements remain. -/
def shrinkHeap (n : Nat) : List TopFileEntry → List TopFileEntry
  | [] => []
  | x :: t => if n < (x :: t).length then shrinkHeap n t else x :: t

/-- One iteration of the enumeration closure in `scan_volume_mft_top_files`:
skip directories, normalize the path, skip paths outside the volume,
otherwise push onto the heap and shrink it back to `n` entries.  The counter
and progress callback do not affect the result and are dropped. -/
def topScanStep (drive volTrim : String) (n : Nat)
    (h : List TopFileEntry) (i : FileInfo) : List TopFileEntry :=
  if i.is_directory then h
  else
    let fullPath := normalizeNtfsPath i.path drive
    if pathUnderVolumeAscii fullPath volTrim = false then h
    else shrinkHeap n
      (heapPush h (TopFileEntry.mk fullPath i.size (modifiedOf i.modified)))

/-- Descending-size order of the final
`list.sort_by(|a, b| b.size.cmp(&a.size))`. -/
def teSizeGe (a b : TopFileEntry) : Prop := b.size ≤ a.size

instance : DecidableRel teSizeGe := fun _ _ => Nat.decLe _ _

instance : IsTotal TopFileEntry teSizeGe :=
  ⟨fun a b => Or.symm (Nat.le_total a.size b.size)⟩

instance : IsTrans TopFileEntry teSizeGe :=
  ⟨fun _ _ _ h1 h2 => Nat.le_trans h2 h1⟩

/-- Embedding of `scan_volume_mft_top_files` (`mft_scan.rs`) after the volume
is opened (path canonicalization and volume access are OS operations outside
the model): fold the enumerated records through the bounded min-heap, drain
it, and sort the result by size descending (a stable sort; the drain order of
the Rust heap is unspecified, modelled here as ascending). -/
def scanVolumeMftTopFiles (infos : List FileInfo) (drive : String) (n : Nat) :
    List TopFileEntry :=
  let volTrim := drive ++ ":"
  let finalHeap := infos.foldl (topScanStep drive volTrim n) []
  List.insertionSort teSizeGe finalHeap

/-- Filter applied by the top-files closure: non-directories whose normalized
path lies under the volume. -/
def keepInfo (drive volTrim : String) (i : FileInfo) : Bool :=
  !i.is_directory
    && pathUnderVolumeAscii (normalizeNtfsPath i.path drive) volTrim

/-- Heap entry built from an enumerated record. -/
def entryOf (drive : String) (i : FileInfo) : TopFileEntry :=
  TopFileEntry.mk (normalizeNtfsPath i.path drive) i.size
    (modifiedOf i.modified)

/-- `MftRecord` built from an enumerated record by the full-scan collection
closure (`scan_volume_mft`). -/
def recOf (drive : String) (i : FileInfo) : MftRecord :=
  MftRecord.mk (normalizeNtfsPath i.path drive) i.size i.is_directory
    (modifiedOf i.modified)

/-- Record collection of the full MFT scan (`scan_volume_mft`): every
enumerated record whose normalized path lies under the volume becomes an
`MftRecord` — directories included — in enumeration order. -/
def recordsOfInfos (infos : List FileInfo) (drive : String) : List MftRecord :=
  let volTrim := drive ++ ":"
  (infos.filter (fun i =>
      pathUnderVolumeAscii (normalizeNtfsPath i.path drive) volTrim)).map
    (recOf drive)

/-- Descending-size order on records
(`files.sort_by(|a, b| b.1.cmp(&a.1))`, the cached key `.1` being
`r.size`). -/
def recSizeGe (a b : MftRecord) : Prop := b.size ≤ a.size

instance : DecidableRel recSizeGe := fun _ _ => Nat.decLe _ _

instance : IsTotal MftRecord recSizeGe :=
  ⟨fun a b => Or.symm (Nat.le_total a.size b.size)⟩

instance : IsTrans MftRecord recSizeGe :=
  ⟨fun _ _ _ h1 h2 => Nat.le_trans h2 h1⟩

/-- `TopFileEntry` built from a record by `build_top_files_from_records`. -/
def entryOfRecord (r : MftRecord) : TopFileEntry :=
  TopFileEntry.mk r.full_path r.size r.modified

/-- Embedding of `build_top_files_from_records` (`mft_scan.rs`): keep the
file records only, sort by size descending (stable), take the first `n`,
convert to entries. -/
def buildTopFilesFromRecords (records : List MftRecord) (n : Nat) :
    List TopFileEntry :=
  let files := records.filter (fun r => !r.is_dir)
  let sorted := List.insertionSort recSizeGe files
  (sorted.take n).map entryOfRecord

/-- Strict descending-size order on entries (antisymmetric vacuously). -/
def szGtT (a b : TopFileEntry) : Prop := b.size < a.size

instance : DecidableRel szGtT := fun _ _ => Nat.decLt _ _

instance : IsAntisymm TopFileEntry szGtT :=
  ⟨fun _ _ h1 h2 => absurd (Nat.lt_trans h1 h2) (Nat.lt_irrefl _)⟩

/-- Strict ascending-size order on entries (antisymmetric vacuously). -/
def szLtT (a b : TopFileEntry) : Prop := a.size < b.size

instance : DecidableRel szLtT := fun _ _ => Nat.decLt _ _

instance : IsAntisymm TopFileEntry szLtT :=
  ⟨fun _ _ h1 h2 => absurd (Nat.lt_trans h1 h2) (Nat.lt_irrefl _)⟩

/-- Two equal-sized files in enumeration order, for the C7 counterexample. -/
def c7infos : List FileInfo :=
  [⟨"C:\\a", 5, false, none⟩, ⟨"C:\\b", 5, false, none⟩]

/-- Two files of distinct sizes and a directory, for the C7 witness. -/
def w7infos : List FileInfo :=
  [⟨"C:\\a", 9, false, none⟩, ⟨"C:\\d", 3, true, none⟩,
   ⟨"C:\\b", 5, false, none⟩]

instance : IsTotal TopFileEntry heapLe := by
  constructor
  intro a b
  unfold heapLe
  rcases Nat.lt_trichotomy a.size b.size with h | h | h
  · exact Or.inl (Or.inl h)
  · rcases lt_trichotomy a.path.data b.path.data with hp | hp | hp
    · exact Or.inl (Or.inr ⟨h, Or.inl hp⟩)
    · have hpe : a.path = b.path := String.ext hp
      have hmtot : optNatLe a.modified b.modified
          ∨ optNatLe b.modified a.modified := by
        cases a.modified with
        | none => exact Or.inl trivial
        | some x =>
          cases b.modified with
          | none => exact Or.inr trivial
          | some y => exact Nat.le_total x y
      rcases hmtot with hm | hm
      · exact Or.inl (Or.inr ⟨h, Or.inr ⟨hpe, hm⟩⟩)
      · exact Or.inr (Or.inr ⟨h.symm, Or.inr ⟨hpe.symm, hm⟩⟩)
    · exact Or.inr (Or.inr ⟨h.symm, Or.inl hp⟩)
  · exact Or.inr (Or.inl h)

instance : IsTrans TopFileEntry heapLe := by
  constructor
  intro a b c hab hbc
  rcases hab with h1 | ⟨e1, h1⟩
  · rcases hbc with h2 | ⟨e2, h2⟩
    · exact Or.inl (Nat.lt_trans h1 h2)
    · exact Or.inl (e2 ▸ h1)
  · rcases hbc with h2 | ⟨e2, h2⟩
    · exact Or.inl (e1 ▸ h2)
    · refine Or.inr ⟨e1.trans e2, ?_⟩
      rcases h1 with p1 | ⟨pe1, m1⟩
      · rcases h2 with p2 | ⟨pe2, m2⟩
        · exact Or.inl (lt_trans (α := List Char) p1 p2)
        · exact Or.inl (pe2 ▸ p1)
      · rcases h2 with p2 | ⟨pe2, m2⟩
        · exact Or.inl (pe1 ▸ p2)
        · refine Or.inr ⟨pe1.trans pe2, ?_⟩
          revert m1 m2
          cases a.modified with
          | none => intro m1 m2; trivial
          | some x =>
            cases b.modified with
            | none => intro m1 _; exact m1.elim
            | some y =>
              cases c.modified with
              | none => intro _ m2; exact m2.elim
              | some z => intro m1 m2; exact Nat.le_trans m1 m2

instance : IsAntisymm TopFileEntry heapLe := by
  constructor
  intro a b hab hba
  obtain ⟨ap, asz, am⟩ := a
  obtain ⟨bp, bsz, bm⟩ := b
  simp only [heapLe, pathLt] at hab hba
  have hs : asz = bsz := by
    rcases hab with h | ⟨h, _⟩ <;> rcases hba with h2 | ⟨h2, _⟩ <;> omega
  subst hs
  have hp : ap = bp := by
    rcases hab with h | ⟨_, hp1⟩
    · omega
    · rcases hba with h2 | ⟨_, hp2⟩
      · omega
      · rcases hp1 with h | ⟨h, _⟩
        · rcases hp2 with h2 | ⟨h2, _⟩
          · exact absurd (lt_trans (α := List Char) h h2) (lt_irrefl _)
          · exact h2.symm
        · exact h
  subst hp
  have hm : am = bm := by
    rcases hab with h | ⟨_, h | ⟨_, h⟩⟩
    · omega
    · exact absurd h (lt_irrefl _)
    · rcases hba with h2 | ⟨_, h2 | ⟨_, h2⟩⟩
      · omega
      · exact absurd h2 (lt_irrefl _)
      · revert h h2
        cases am with
        | none =>
          cases bm with
          | none => intro _ _; rfl
          | some y => intro _ h2; exact h2.elim
        | some x =>
          cases bm with
          | none => intro h _; exact h.elim
          | some y => intro h h2; exact congrArg some (Nat.le_antisymm h h2)
  subst hm
  rfl

/-- A childless node satisfies every depth bound. -/
theorem withinDepth_leaf (n : Nat) (p nm : String) (s : Nat) (d : Bool)
    (m : Option Nat) : withinDepth n (.mk p nm s d m []) = true := by
  cases n <;> simp [withinDepth, FileNode.children]

/-- Every child produced by the subtree loop satisfies `P`, provided the
shallow step, the non-shallow step, and the already-accumulated children
produce nodes satisfying `P`. -/
theorem subtreeLoop_all (records : List MftRecord) (rsizes : List (String × Nat))
    (sh : Bool) (p : String) (nonShallow : MftRecord → FileNode × Nat × Nat)
    (P : FileNode → Prop)
    (hShallow : ∀ rec, P (shallowStep rsizes rec).1)
    (hNon : ∀ rec, P (nonShallow rec).1) :
    ∀ (cis : List Nat) (accS accC : Nat) (accCh : List FileNode),
      (∀ c ∈ accCh, P c) →
      ∀ c ∈ (subtreeLoop records rsizes sh p nonShallow cis accS accC accCh).2.2,
        P c := by
  intro cis
  induction cis with
  | nil =>
    intro accS accC accCh hAcc c hc
    exact hAcc c hc
  | cons idx rest ih =>
    intro accS accC accCh hAcc c hc
    rw [subtreeLoop] at hc
    rcases hget : records.get? idx with _ | rec <;> (try rw [hget] at hc) <;>
      (try dsimp only at hc)
    · exact ih accS accC accCh hAcc c hc
    · by_cases hself : eqIgnoreAsciiCase rec.full_path p = true
      · rw [if_pos hself] at hc
        exact ih accS accC accCh hAcc c hc
      · rw [if_neg hself] at hc
        try dsimp only at hc
        set step :=
          if sh && rec.is_dir && isShallowName (lastComponent rec.full_path)
          then shallowStep rsizes rec
          else nonShallow rec with hstepdef
        have hstepOk : P step.1 := by
          rw [hstepdef]
          by_cases hsh : (sh && rec.is_dir
              && isShallowName (lastComponent rec.full_path)) = true
          · rw [if_pos hsh]; exact hShallow rec
          · rw [if_neg hsh]; exact hNon rec
        have hext : ∀ x ∈ accCh ++ [step.1], P x := by
          intro x hx
          rcases List.mem_append.mp hx with hx1 | hx2
          · exact hAcc x hx1
          · rw [List.mem_singleton.mp hx2]; exact hstepOk
        by_cases hbrk : MAX_CHILDREN_PER_DIR ≤ (accCh ++ [step.1]).length
        · rw [if_pos hbrk] at hc
          exact hext c hc
        · rw [if_neg hbrk] at hc
          exact ih _ _ _ hext c hc

/-- Unfolding of `withinDepth` at a positive bound. -/
theorem withinDepth_succ (n : Nat) (t : FileNode) :
    withinDepth (n + 1) t = t.children.all (fun c => withinDepth n c) := by
  cases t; rfl

/-- The tree built by `build_subtree_from_indices` with fuel `fuel` has no
node deeper than `fuel + 1`: each recursive call consumes one unit of fuel and
the out-of-fuel branch emits only childless leaves. -/
theorem buildSubtreeAux_within (records : List MftRecord)
    (index : List (String × List Nat)) (rsizes : List (String × Nat))
    (sh : Bool) :
    ∀ (fuel : Nat) (p nm : String),
      withinDepth (fuel + 1) (buildSubtreeAux records index rsizes sh
        fuel p nm).1 = true := by
  intro fuel
  induction fuel with
  | zero =>
    intro p nm
    rw [buildSubtreeAux]
    rw [withinDepth_succ]
    dsimp only [FileNode.children]
    rw [List.all_eq_true]
    intro c hc
    refine subtreeLoop_all records rsizes sh p leafStep
      (fun c => withinDepth 0 c = true) (fun rec => withinDepth_leaf _ _ _ _ _ _)
      (fun rec => withinDepth_leaf _ _ _ _ _ _) _ 0 0 [] (by simp) c hc
  | succ k ih =>
    intro p nm
    rw [buildSubtreeAux]
    rw [withinDepth_succ]
    dsimp only [FileNode.children]
    rw [List.all_eq_true]
    intro c hc
    refine subtreeLoop_all records rsizes sh p _
      (fun c => withinDepth (k + 1) c = true)
      (fun rec => withinDepth_leaf _ _ _ _ _ _)
      (fun rec => ih _ _) _ 0 0 [] (by simp) c hc

/-- When every child index of the current path resolves to a record whose full
path equals the current path ASCII-case-insensitively, the loop skips all of
them and returns its accumulators unchanged. -/
theorem subtreeLoop_skip (records : List MftRecord) (rsizes : List (String × Nat))
    (sh : Bool) (p : String) (nonShallow : MftRecord → FileNode × Nat × Nat) :
    ∀ (cis : List Nat),
      (∀ i ∈ cis, ∀ r, records.get? i = some r →
        eqIgnoreAsciiCase r.full_path p = true) →
      ∀ (accS accC : Nat) (accCh : List FileNode),
        subtreeLoop records rsizes sh p nonShallow cis accS accC accCh
          = (accS, accC, accCh) := by
  intro cis
  induction cis with
  | nil => intro _ accS accC accCh; rfl
  | cons idx rest ih =>
    intro H accS accC accCh
    rw [subtreeLoop]
    rcases hget : records.get? idx with _ | rec <;> (try dsimp only)
    · exact ih (fun i hi => H i (List.mem_cons_of_mem _ hi)) accS accC accCh
    · rw [if_pos (H idx (List.mem_cons_self _ _) rec hget)]
      exact ih (fun i hi => H i (List.mem_cons_of_mem _ hi)) accS accC accCh

/-- Under the skip hypothesis of `subtreeLoop_skip`, the node built by
`build_subtree_from_indices` has no children, at every fuel. -/
theorem buildSubtreeAux_children_skip (records : List MftRecord)
    (index : List (String × List Nat)) (rsizes : List (String × Nat))
    (sh : Bool) (fuel : Nat) (p nm : String)
    (H : ∀ i ∈ (mapGet index p).getD [], ∀ r, records.get? i = some r →
      eqIgnoreAsciiCase r.full_path p = true) :
    (buildSubtreeAux records index rsizes sh fuel p nm).1.children = [] := by
  cases fuel with
  | zero =>
    rw [buildSubtreeAux]
    dsimp only
    rw [subtreeLoop_skip records rsizes sh p _ _ H 0 0 []]
    rfl
  | succ k =>
    rw [buildSubtreeAux]
    dsimp only
    rw [subtreeLoop_skip records rsizes sh p _ _ H 0 0 []]
    rfl

/-- Claim C10: `build_subtree_from_indices` terminates on every finite records
vector and child-index map, even in the presence of self-referential or cyclic
parent links.  In the embedding the function is total by construction (its
recursion is on the fuel `MAX_DEPTH - depth`, consumed one unit per level);
this theorem exhibits the two mechanisms the claim names: (1) starting from
any `depth ≤ MAX_DEPTH = 10`, the built tree has no node deeper than
`MAX_DEPTH + 1 - depth` levels, because recursive calls increment `depth` by
exactly 1 and happen only while `depth < MAX_DEPTH`; and (2) a child record
whose full path equals the current node's path ASCII-case-insensitively is
skipped, so a direct self-loop in the index produces a childless node. -/
theorem claim_C10 (records : List MftRecord)
    (index : List (String × List Nat)) (rsizes : List (String × Nat))
    (p nm : String) (d : Nat) (sh : Bool) :
    (d ≤ MAX_DEPTH →
      withinDepth (MAX_DEPTH + 1 - d)
        (buildSubtree records index rsizes p nm d sh).1 = true)
    ∧ ((∀ i ∈ (mapGet index p).getD [], ∀ r, records.get? i = some r →
          eqIgnoreAsciiCase r.full_path p = true) →
        (buildSubtree records index rsizes p nm d sh).1.children = []) := by
  constructor
  · intro hd
    have h := buildSubtreeAux_within records index rsizes sh (MAX_DEPTH - d) p nm
    have he : MAX_DEPTH + 1 - d = (MAX_DEPTH - d) + 1 := by omega
    rw [he]
    exact h
  · intro H
    exact buildSubtreeAux_children_skip records index rsizes sh _ p nm H

theorem claim_C10_witness :
    ((1 : Nat) ≤ MAX_DEPTH ∧
      withinDepth (MAX_DEPTH + 1 - 1)
        (buildSubtree cycRecords cycIndex [] "C:\\a" "a" 1 true).1 = true)
    ∧ (buildSubtree selfRecords selfIndex [] "C:\\a" "a" 1 true).1.children = [] := by
  refine ⟨⟨by decide, (claim_C10 cycRecords cycIndex [] "C:\\a" "a" 1 true).1 (by decide)⟩, ?_⟩
  refine (claim_C10 selfRecords selfIndex [] "C:\\a" "a" 1 true).2 ?_
  intro i hi r hr
  have hi0 : i = 0 := by
    have : (mapGet selfIndex "C:\\a").getD [] = [0] := by decide
    rw [this] at hi
    exact List.mem_singleton.mp hi
  subst hi0
  have : selfRecords.get? 0 = some ⟨"C:\\A", 0, true, none⟩ := rfl
  rw [this] at hr
  cases hr
  decide

/-- Claim C1 evaluated at its failing input: the records vector holds a single
file record `C:\a.txt` of size 5 as direct child of the root, well below the
depth cap.  The MFT tree builder nevertheless recurses into the file record
(the `depth < MAX_DEPTH` branch applies to every non-shallow record, files
included) and `build_subtree_from_indices` hard-codes `is_dir: true` and sums
the sizes of the (nonexistent) indexed children, so the node for the file
comes out with `is_dir = true` and `size = 0`, and the root's total size is 0
instead of 5 — contradicting the claim's `is_dir == false` and
`size == r.size`. -/
theorem claim_C1_eval :
    (buildTreeFromMftRecords c1Records c1Index c1Rsizes "C:" "C:\\" "C:\\"
        "C:\\" true).1
      = FileNode.mk "C:\\" "C:\\" 0 true none
          [FileNode.mk "C:\\a.txt" "a.txt" 0 true none []]
    ∧ (buildTreeFromMftRecords c1Records c1Index c1Rsizes "C:" "C:\\" "C:\\"
        "C:\\" true).2.2 = 0
    ∧ (buildTreeFromMftRecords c1Records c1Index c1Rsizes "C:" "C:\\" "C:\\"
        "C:\\" true).2.1 = 2 := by
  refine ⟨rfl, rfl, ?_⟩
  show 1 + (List.map countNodes [FileNode.mk "C:\\a.txt" "a.txt" 0 true none []]).sum = 2
  rw [List.map, List.map, List.sum_cons, List.sum_nil, countNodes]
  rfl

/-- Claim C5 counterexample: an MFT elevation failure is converted to the same
error kind (`Io`) as a generic MFT I/O failure, so the two are not
distinguishable as error kinds — `DiskAnalyzerError` has no
`ElevationRequired` variant at all. -/
theorem claim_C5_counterexample :
    (toDiskAnalyzerError NtfsReaderError.elevationError).kind
      = (toDiskAnalyzerError (NtfsReaderError.ioFailure "disk read failed")).kind :=
  rfl

/-- Claim C5 as amended: an elevation failure during MFT volume access is
surfaced as the generic `Io` error kind — like every other `ntfs_reader`
failure — and is distinguishable from a generic I/O failure only by its
diagnostic message text, which never coincides with the message of a wrapped
I/O error. -/
theorem claim_C5 (m : String) :
    (toDiskAnalyzerError NtfsReaderError.elevationError).kind = ErrKind.ioKind
    ∧ (toDiskAnalyzerError (NtfsReaderError.ioFailure m)).kind = ErrKind.ioKind
    ∧ (toDiskAnalyzerError NtfsReaderError.elevationError).payload
        ≠ (toDiskAnalyzerError (NtfsReaderError.ioFailure m)).payload := by
  refine ⟨rfl, rfl, ?_⟩
  intro h
  simp only [toDiskAnalyzerError, DiskAnalyzerError.payload] at h
  have h3 := congrArg (fun s => s.data.take 4) h
  have hd : ("MFT read I/O error: " ++ m).data.take 4 = ['M', 'F', 'T', ' '] := rfl
  have he : ("NTFS volume access requires elevated (admin) privileges" :
      String).data.take 4 = ['N', 'T', 'F', 'S'] := rfl
  simp only [hd, he] at h3
  exact absurd h3 (by decide)

/-! ## Structural facts about display pruning -/

/-- Pruning preserves the size of the node it is applied to. -/
theorem pruneAux_size (fuel : Nat) (t : FileNode) :
    (pruneAux fuel t).size = t.size := by
  cases fuel <;> cases t <;> rfl

/-- Pruning preserves the path of the node it is applied to. -/
theorem pruneAux_path (fuel : Nat) (t : FileNode) :
    (pruneAux fuel t).path = t.path := by
  cases fuel <;> cases t <;> rfl

/-- Pruning preserves the name of the node it is applied to. -/
theorem pruneAux_name (fuel : Nat) (t : FileNode) :
    (pruneAux fuel t).name = t.name := by
  cases fuel <;> cases t <;> rfl

/-- Pruning preserves the directory flag of the node it is applied to. -/
theorem pruneAux_is_dir (fuel : Nat) (t : FileNode) :
    (pruneAux fuel t).is_dir = t.is_dir := by
  cases fuel <;> cases t <;> rfl

/-- Membership in the (possibly sorted and truncated) children list used by
`prune_tree_for_display` implies membership in the original children list. -/
theorem mem_pruneSelect {cs : List FileNode} {c : FileNode}
    (h : c ∈ (if MAX_CHILDREN_PER_DIR_RETURN < cs.length then
      (List.insertionSort szGe cs).take MAX_CHILDREN_PER_DIR_RETURN else cs)) :
    c ∈ cs := by
  by_cases hl : MAX_CHILDREN_PER_DIR_RETURN < cs.length
  · rw [if_pos hl] at h
    exact (List.perm_insertionSort szGe cs).subset (List.take_subset _ _ h)
  · rw [if_neg hl] at h
    exact h

/-- The pruned tree refines the input tree: every surviving node keeps its
`path`, `name`, `size` and `is_dir`, and is a child of the node its parent
came from. -/
theorem pruneAux_refines : ∀ (fuel : Nat) (t : FileNode),
    NodeRefines (pruneAux fuel t) t := by
  intro fuel
  induction fuel with
  | zero =>
    intro t
    cases t with
    | mk p n s d m cs =>
      rw [NodeRefines]
      refine ⟨rfl, rfl, rfl, rfl, ?_⟩
      intro c hc
      simp [pruneAux, FileNode.children] at hc
  | succ k ih =>
    intro t
    cases t with
    | mk p n s d m cs =>
      rw [NodeRefines]
      refine ⟨rfl, rfl, rfl, rfl, ?_⟩
      intro c hc
      simp only [pruneAux, FileNode.children, List.mem_map] at hc
      obtain ⟨c0, hc0, rfl⟩ := hc
      exact ⟨c0, mem_pruneSelect hc0, ih c0⟩

/-- The pruned tree with fuel `fuel` has no node deeper than `fuel`. -/
theorem pruneAux_within : ∀ (fuel : Nat) (t : FileNode),
    withinDepth fuel (pruneAux fuel t) = true := by
  intro fuel
  induction fuel with
  | zero =>
    intro t
    cases t with
    | mk p n s d m cs => rfl
  | succ k ih =>
    intro t
    cases t with
    | mk p n s d m cs =>
      rw [withinDepth_succ]
      simp only [pruneAux, FileNode.children, List.all_eq_true, List.mem_map]
      rintro c ⟨c0, hc0, rfl⟩
      exact ih c0

/-- Claim C8 counterexample: `prune_tree_for_display` sorts a children list
only when it holds more than `MAX_CHILDREN_PER_DIR_RETURN` entries, so with
two children of sizes 1 and 2 (in that order) the returned children are not
sorted by size descending, contrary to the claim's "at each level the children
are sorted by size descending". -/
theorem claim_C8_counterexample :
    ¬ List.Sorted szGe (pruneTreeForDisplay c8Tree 0).children := by
  have h : (pruneTreeForDisplay c8Tree 0).children
      = [FileNode.mk "r/a" "a" 1 false none [],
         FileNode.mk "r/b" "b" 2 false none []] := rfl
  rw [h]
  simp [List.sorted_cons, szGe, FileNode.size]

/-- Claim C8 as amended: for every input tree and starting depth,
`prune_tree_for_display` returns a tree in which (1) no node lies deeper than
`MAX_DEPTH_RETURN - depth` levels (so no node deeper than 6 from the root),
(2) every surviving node's own `size`, `path`, `name` and `is_dir` are
unchanged (`NodeRefines`, so the root's size still equals the pre-prune
total), (3) at depth at or beyond the cap all children are stripped, and
(4) below the cap, a children list of at most `MAX_CHILDREN_PER_DIR_RETURN`
entries is kept whole in its original order, while a longer one is sorted by
size descending and truncated to the first `MAX_CHILDREN_PER_DIR_RETURN`
(hence at most 250 children per node, and sorted output exactly when the
input level overflowed). -/
theorem claim_C8 (t : FileNode) (d : Nat) :
    withinDepth (MAX_DEPTH_RETURN - d) (pruneTreeForDisplay t d) = true
    ∧ NodeRefines (pruneTreeForDisplay t d) t
    ∧ (MAX_DEPTH_RETURN ≤ d → (pruneTreeForDisplay t d).children = [])
    ∧ (d < MAX_DEPTH_RETURN →
        (pruneTreeForDisplay t d).children.length
          = min t.children.length MAX_CHILDREN_PER_DIR_RETURN
        ∧ (t.children.length ≤ MAX_CHILDREN_PER_DIR_RETURN →
            (pruneTreeForDisplay t d).children
              = t.children.map (fun c => pruneTreeForDisplay c (d + 1)))
        ∧ (MAX_CHILDREN_PER_DIR_RETURN < t.children.length →
            List.Sorted szGe (pruneTreeForDisplay t d).children)) := by
  refine ⟨pruneAux_within _ t, pruneAux_refines _ t, ?_, ?_⟩
  · intro hd
    have h0 : MAX_DEPTH_RETURN - d = 0 := by omega
    unfold pruneTreeForDisplay
    rw [h0]
    cases t
    rfl
  · intro hd
    obtain ⟨k, hk⟩ : ∃ k, MAX_DEPTH_RETURN - d = k + 1 :=
      ⟨MAX_DEPTH_RETURN - d - 1, by omega⟩
    have hk1 : MAX_DEPTH_RETURN - (d + 1) = k := by omega
    unfold pruneTreeForDisplay
    rw [hk, hk1]
    cases t with
    | mk p n s dd m cs =>
      simp only [pruneAux, FileNode.children]
      refine ⟨?_, ?_, ?_⟩
      · by_cases hl : MAX_CHILDREN_PER_DIR_RETURN < cs.length
        · rw [if_pos hl]
          rw [List.length_map, List.length_take,
            (List.perm_insertionSort szGe cs).length_eq]
          omega
        · rw [if_neg hl]
          rw [List.length_map]
          omega
      · intro hle
        rw [if_neg (by omega)]
      · intro hl
        rw [if_pos hl]
        have hs : List.Sorted szGe (List.insertionSort szGe cs) :=
          List.sorted_insertionSort szGe cs
        have hs2 : List.Sorted szGe
            ((List.insertionSort szGe cs).take MAX_CHILDREN_PER_DIR_RETURN) :=
          hs.sublist (List.take_sublist _ _)
        exact hs2.map _ (fun a b hab => by
          show (pruneAux k b).size ≤ (pruneAux k a).size
          rw [pruneAux_size, pruneAux_size]
          exact hab)

set_option maxRecDepth 4000 in
theorem claim_C8_witness :
    ((pruneTreeForDisplay c8Tree 0).children
        = c8Tree.children.map (fun c => pruneTreeForDisplay c 1))
    ∧ List.Sorted szGe (pruneTreeForDisplay c8Big 0).children
    ∧ (pruneTreeForDisplay c8Tree 6).children = [] := by
  refine ⟨((claim_C8 c8Tree 0).2.2.2 (by decide)).2.1 (by decide), ?_, ?_⟩
  · exact ((claim_C8 c8Big 0).2.2.2 (by decide)).2.2
      (by simp [c8Big, FileNode.children, MAX_CHILDREN_PER_DIR_RETURN])
  · exact (claim_C8 c8Tree 6).2.2.1 (by decide)

/-- Lookup distributes over cons in the association-list model. -/
theorem mapGet_cons {α : Type} (k : String) (v : α) (m : List (String × α))
    (q : String) :
    mapGet ((k, v) :: m) q = if q = k then some v else mapGet m q := by
  by_cases h : q = k
  · simp [mapGet, List.lookup, h]
  · have hb : (q == k) = false := beq_false_of_ne h
    simp [mapGet, List.lookup, hb, h]

/-- Deduplication does not change membership. -/
theorem mem_dedupConsec {q : String} : ∀ {l : List String},
    q ∈ dedupConsec l ↔ q ∈ l := by
  intro l
  induction l with
  | nil => simp [dedupConsec]
  | cons a tail ih =>
    cases tail with
    | nil => simp [dedupConsec]
    | cons b rest =>
      rw [dedupConsec]
      by_cases hab : a = b
      · rw [if_pos hab]
        subst hab
        rw [ih]
        simp
      · rw [if_neg hab]
        simp only [List.mem_cons]
        rw [List.mem_cons] at ih
        constructor
        · rintro (h | h)
          · exact Or.inl h
          · rcases ih.mp h with h2 | h2
            · exact Or.inr (Or.inl h2)
            · exact Or.inr (Or.inr h2)
        · rintro (h | h | h)
          · exact Or.inl h
          · exact Or.inr (ih.mpr (Or.inl h))
          · exact Or.inr (ih.mpr (Or.inr h))

/-- Deduplicating a `≤`-sorted list yields a strictly sorted list. -/
theorem dedupConsec_sorted_lt : ∀ {l : List String},
    List.Sorted pathLe l → List.Sorted pathLt (dedupConsec l) := by
  intro l
  induction l with
  | nil => intro _; simp [dedupConsec]
  | cons a tail ih =>
    cases tail with
    | nil => intro _; simp [dedupConsec, List.Sorted]
    | cons b rest =>
      intro hs
      rw [List.sorted_cons] at hs
      obtain ⟨hall, hs2⟩ := hs
      rw [dedupConsec]
      by_cases hab : a = b
      · rw [if_pos hab]
        exact ih hs2
      · rw [if_neg hab]
        rw [List.sorted_cons]
        refine ⟨?_, ih hs2⟩
        intro x hx
        have hxmem : x ∈ b :: rest := mem_dedupConsec.mp hx
        have haleb : pathLe a b := hall b (List.mem_cons_self _ _)
        have hlt : pathLt a b := by
          rcases lt_or_eq_of_le (haleb : a.data ≤ b.data) with h | h
          · exact h
          · exact absurd (String.toList_inj.mp h) hab
        rcases List.mem_cons.mp hxmem with rfl | hxr
        · exact hlt
        · have hbx : pathLe b x :=
            (List.rel_of_sorted_cons hs2) x hxr
          exact lt_of_lt_of_le (hlt : a.data < b.data) hbx

/-- The iterated path list of `compute_recursive_sizes` has no duplicates. -/
theorem sortedPaths_nodup (records : List MftRecord) (vrt : String) :
    (sortedPaths records vrt).Nodup := by
  unfold sortedPaths
  refine (List.perm_insertionSort sepGe _).nodup_iff.mpr ?_
  have hs : List.Sorted pathLt (dedupConsec (List.insertionSort pathLe
      (if (records.map (fun r => trimEndSep r.full_path)).any
          (fun p => eqIgnoreAsciiCase p vrt)
        then records.map (fun r => trimEndSep r.full_path)
        else records.map (fun r => trimEndSep r.full_path) ++ [vrt]))) :=
    dedupConsec_sorted_lt (List.sorted_insertionSort pathLe _)
  exact hs.imp (fun h => fun he => by
    subst he
    exact absurd h (lt_irrefl _))

/-- Every record's trimmed path appears in the iterated path list. -/
theorem mem_sortedPaths (records : List MftRecord) (vrt : String)
    {r : MftRecord} (hr : r ∈ records) :
    trimEndSep r.full_path ∈ sortedPaths records vrt := by
  unfold sortedPaths
  rw [(List.perm_insertionSort sepGe _).mem_iff]
  rw [mem_dedupConsec]
  rw [(List.perm_insertionSort pathLe _).mem_iff]
  have h0 : trimEndSep r.full_path ∈ records.map (fun r => trimEndSep r.full_path) :=
    List.mem_map_of_mem _ hr
  by_cases hany : (records.map (fun r => trimEndSep r.full_path)).any
      (fun p => eqIgnoreAsciiCase p vrt)
  · rw [if_pos hany]; exact h0
  · rw [if_neg hany]; exact List.mem_append_left _ h0

/-- Unfolding of `childDeeper` at a resolvable index. -/
theorem childDeeper_spec {records : List MftRecord} {q : String} {i : Nat}
    (h : childDeeper records q i = true) :
    ∀ r, records.get? i = some r →
      sepCount q < sepCount (trimEndSep r.full_path) := by
  intro r hr
  rw [childDeeper, hr] at h
  exact of_decide_eq_true h

/-- Values already recorded in the accumulator survive the rest of the
aggregation fold untouched: `compute_recursive_sizes` inserts each path only
once. -/
theorem crsFold_preserved (records : List MftRecord)
    (childIndex : List (String × List Nat)) (directSizes : List (String × Nat))
    (vrt vrk : String) :
    ∀ (l : List String) (acc : List (String × Nat)) (q : String) (v : Nat),
      q ∉ l → mapGet acc q = some v →
      mapGet (l.foldl (crsStep records childIndex directSizes vrt vrk) acc) q
        = some v := by
  intro l
  induction l with
  | nil => intro acc q v _ h; exact h
  | cons p rest ih =>
    intro acc q v hq hacc
    rw [List.foldl_cons]
    refine ih _ _ _ (fun h => hq (List.mem_cons_of_mem _ h)) ?_
    show mapGet ((p, _) :: acc) q = some v
    rw [mapGet_cons]
    rw [if_neg (fun he => hq (by rw [he]; exact List.mem_cons_self _ _))]
    exact hacc

/-- Invariant of the aggregation fold: on a duplicate-free remaining path list
sorted by descending separator count, with no remaining path yet recorded and
every consulted child either already recorded or still to come but strictly
deeper, each remaining path ends up mapped to its direct size
saturating-added to the wrapping sum of its children's final recursive
sizes. -/
theorem crsFold_inv (records : List MftRecord)
    (childIndex : List (String × List Nat)) (directSizes : List (String × Nat))
    (vrt vrk : String) :
    ∀ (l : List String) (acc : List (String × Nat)),
      l.Nodup →
      List.Sorted sepGe l →
      (∀ q ∈ l, mapGet acc q = none) →
      (∀ q ∈ l, ∀ i ∈ childIndicesOf childIndex vrt vrk q,
        childDeeper records q i = true ∧
        (∀ r, records.get? i = some r →
          ((mapGet acc (trimEndSep r.full_path)).isSome = true
            ∨ trimEndSep r.full_path ∈ l))) →
      ∀ p ∈ l,
        mapGet (l.foldl (crsStep records childIndex directSizes vrt vrk) acc) p
          = some (satAdd ((mapGet directSizes p).getD 0)
              (wrapSum ((childIndicesOf childIndex vrt vrk p).map
                (childValue records
                  (l.foldl (crsStep records childIndex directSizes vrt vrk)
                    acc))))) := by
  intro l
  induction l with
  | nil => intro acc _ _ _ _ p hp; exact absurd hp (List.not_mem_nil p)
  | cons p0 rest ih =>
    intro acc hnd hsorted haccnone hchild p hp
    have hnd2 := hnd
    rw [List.nodup_cons] at hnd2
    obtain ⟨hp0rest, hndrest⟩ := hnd2
    rw [List.foldl_cons]
    set v0 := satAdd ((mapGet directSizes p0).getD 0)
      (wrapSum ((childIndicesOf childIndex vrt vrk p0).map
        (childValue records acc))) with hv0
    have hstep : crsStep records childIndex directSizes vrt vrk acc p0
        = (p0, v0) :: acc := rfl
    rw [hstep]
    -- no child of any remaining path lies in the remaining list at its own turn
    have hchildnotin : ∀ i ∈ childIndicesOf childIndex vrt vrk p0,
        ∀ r, records.get? i = some r →
          trimEndSep r.full_path ∉ p0 :: rest := by
      intro i hi r hr hmem
      have hdeep := childDeeper_spec
        ((hchild p0 (List.mem_cons_self _ _) i hi).1) r hr
      rcases List.mem_cons.mp hmem with he | hm
      · rw [he] at hdeep
        exact absurd hdeep (lt_irrefl _)
      · have := (List.rel_of_sorted_cons hsorted) _ hm
        exact absurd hdeep (by
          simp only [sepGe] at this
          omega)
    rcases List.mem_cons.mp hp with he | hprest
    · subst he
      -- the head path: its stored value is final, and the children it summed
      -- were already final
      have hlook : mapGet (rest.foldl
          (crsStep records childIndex directSizes vrt vrk) ((p, v0) :: acc)) p
          = some v0 := by
        refine crsFold_preserved records childIndex directSizes vrt vrk rest _
          _ _ hp0rest ?_
        rw [mapGet_cons, if_pos rfl]
      rw [hlook]
      congr 1
      rw [hv0]
      congr 1
      refine congrArg wrapSum (List.map_congr_left ?_)
      intro i hi
      simp only [childValue]
      rcases hget : records.get? i with _ | r <;> (try dsimp only)
      · have hnotin := hchildnotin i hi r hget
        rcases (hchild p (List.mem_cons_self _ _) i hi).2 r hget with hsome | hmem
        · rcases hv : mapGet acc (trimEndSep r.full_path) with _ | vc
          · rw [hv] at hsome; simp at hsome
          · have hpres : mapGet (rest.foldl
                (crsStep records childIndex directSizes vrt vrk)
                ((p, v0) :: acc)) (trimEndSep r.full_path) = some vc := by
              refine crsFold_preserved records childIndex directSizes vrt vrk
                rest _ _ _ (fun hm => hnotin (List.mem_cons_of_mem _ hm)) ?_
              rw [mapGet_cons]
              rw [if_neg (fun he => hnotin (by rw [he]; exact List.mem_cons_self _ _))]
              exact hv
            have hpres2 := hpres
            rw [hv0] at hpres2
            rw [hpres2]
        · exact absurd hmem hnotin
    · -- a later path: the inductive hypothesis applies with the extended
      -- accumulator
      refine ih ((p0, v0) :: acc) hndrest hsorted.of_cons ?_ ?_ p hprest
      · intro q hq
        rw [mapGet_cons]
        rw [if_neg (fun he => hp0rest (by rw [← he]; exact hq))]
        exact haccnone q (List.mem_cons_of_mem _ hq)
      · intro q hq i hi
        refine ⟨(hchild q (List.mem_cons_of_mem _ hq) i hi).1, ?_⟩
        intro r hr
        rcases (hchild q (List.mem_cons_of_mem _ hq) i hi).2 r hr with hsome | hmem
        · left
          rw [mapGet_cons]
          by_cases he : trimEndSep r.full_path = p0
          · rw [if_pos he]; rfl
          · rw [if_neg he]; exact hsome
        · rcases List.mem_cons.mp hmem with he | hm
          · left
            rw [mapGet_cons, if_pos he]
            rfl
          · right
            exact hm

/-- Claim C3 counterexample: the children sum of `compute_recursive_sizes` is
the plain `Iterator::sum` over `u64`, which wraps: with two children of
recursive size `2^63`, the directory `C:\a` is assigned
`0.saturating_add((2^63 + 2^63) mod 2^64) = 0`, whereas the claimed
all-saturating aggregation would assign `u64::MAX`.  Only the final addition
of `direct` and the child sum saturates. -/
theorem claim_C3_counterexample :
    mapGet (computeRecursiveSizes c3Records c3Index c3Direct "C:" "C:\\")
        "C:\\a" = some 0
    ∧ satAdd 0 (satAdd (2 ^ 63) (2 ^ 63)) = U64MOD - 1
    ∧ (0 : Nat) ≠ U64MOD - 1 := by
  refine ⟨rfl, rfl, by decide⟩

/-- Claim C3 as amended: `compute_recursive_sizes` visits paths in order of
decreasing separator-count depth, and — whenever the child index links every
path only to strictly deeper records, as the record indexer always arranges —
assigns each visited path `p` the value
`direct[p].saturating_add(child_sum)`, where `child_sum` is the plain
(wrapping) `u64` sum of the final recursive sizes of `p`'s children; because
deeper paths are visited first, each child's value is already its final one.
Only the outer addition is saturating. -/
theorem claim_C3 (records : List MftRecord)
    (childIndex : List (String × List Nat)) (directSizes : List (String × Nat))
    (vrt vrk : String)
    (Hdeep : ∀ p ∈ sortedPaths records vrt,
      ∀ i ∈ childIndicesOf childIndex vrt vrk p,
        childDeeper records p i = true) :
    List.Sorted sepGe (sortedPaths records vrt)
    ∧ ∀ p ∈ sortedPaths records vrt,
        mapGet (computeRecursiveSizes records childIndex directSizes vrt vrk) p
          = some (satAdd ((mapGet directSizes p).getD 0)
              (wrapSum ((childIndicesOf childIndex vrt vrk p).map
                (childValue records
                  (computeRecursiveSizes records childIndex directSizes vrt
                    vrk))))) := by
  constructor
  · exact List.sorted_insertionSort sepGe _
  · intro p hp
    refine crsFold_inv records childIndex directSizes vrt vrk
      (sortedPaths records vrt) [] (sortedPaths_nodup records vrt)
      (List.sorted_insertionSort sepGe _) (fun q _ => rfl) ?_ p hp
    intro q hq i hi
    refine ⟨Hdeep q hq i hi, ?_⟩
    intro r hr
    right
    exact mem_sortedPaths records vrt (List.get?_mem hr)

theorem claim_C3_witness :
    ((∀ p ∈ sortedPaths c3Records "C:",
        ∀ i ∈ childIndicesOf c3Index "C:" "C:\\" p,
          childDeeper c3Records p i = true)
      ∧ List.Sorted sepGe (sortedPaths c3Records "C:"))
    ∧ mapGet (computeRecursiveSizes c3Records c3Index c3Direct "C:" "C:\\")
          "C:\\a"
        = some (satAdd ((mapGet c3Direct "C:\\a").getD 0)
            (wrapSum ((childIndicesOf c3Index "C:" "C:\\" "C:\\a").map
              (childValue c3Records
                (computeRecursiveSizes c3Records c3Index c3Direct "C:"
                  "C:\\"))))) := by
  refine ⟨⟨by decide, (claim_C3 c3Records c3Index c3Direct "C:" "C:\\"
    (by decide)).1⟩, ?_⟩
  exact (claim_C3 c3Records c3Index c3Direct "C:" "C:\\" (by decide)).2
    "C:\\a" (by decide)

/-- Metadata agrees with `path.is_dir()` when it succeeds. -/
theorem metadataOf_isDir {c : FsNode} {mi : MetaInfo}
    (h : metadataOf c = .ok mi) : mi.isDir = isDirB c := by
  cases c with
  | file n s m =>
    simp only [metadataOf, Except.ok.injEq] at h
    rw [← h]
    rfl
  | badMeta n e => exact absurd h (by simp [metadataOf])
  | dir n le es m =>
    simp only [metadataOf, Except.ok.injEq] at h
    rw [← h]
    rfl

/-- Fields of a successfully built tree node: the node carries the `path` and
`name` arguments and its metadata's directory flag. -/
theorem buildTreeAux_ok_fields {sh : Bool} {fuel : Nat} {node : FsNode}
    {p nm : String} {u : FileNode} {cnt : Nat}
    (h : buildTreeAux sh fuel node p nm = Except.ok (u, cnt)) :
    u.path = p ∧ u.name = nm ∧
      ∃ mi, metadataOf node = Except.ok mi ∧ u.is_dir = mi.isDir := by
  cases fuel with
  | zero =>
    rw [buildTreeAux] at h
    rcases hm : metadataOf node with e | mi <;> (try rw [hm] at h) <;>
      (try dsimp only at h)
    · exact absurd h (by simp)
    · simp only [Except.ok.injEq, Prod.mk.injEq] at h
      rw [← h.1]
      exact ⟨rfl, rfl, mi, rfl, rfl⟩
  | succ k =>
    rw [buildTreeAux] at h
    rcases hm : metadataOf node with e | mi <;> (try rw [hm] at h) <;>
      (try dsimp only at h)
    · exact absurd h (by simp)
    · by_cases hd : mi.isDir = true
      · rw [if_pos hd] at h
        rcases hrd : readDirOf node with e | entries <;> (try rw [hrd] at h) <;>
          (try dsimp only at h)
        · exact absurd h (by simp)
        · rcases hcomb : combineResults ((List.take MAX_CHILDREN_PER_DIR
              (List.insertionSort entKeyLe entries)).map (processEntryG sh
              (fun c2 p2 n2 => buildTreeAux sh k c2 p2 n2) p)) with e |
              ⟨s, cnt2, ns⟩ <;> (try rw [hcomb] at h) <;> (try dsimp only at h)
          · exact absurd h (by simp)
          · simp only [Except.ok.injEq, Prod.mk.injEq] at h
            rw [← h.1]
            exact ⟨rfl, rfl, mi, rfl, rfl⟩
      · rw [if_neg hd] at h
        simp only [Except.ok.injEq, Prod.mk.injEq] at h
        rw [← h.1]
        exact ⟨rfl, rfl, mi, rfl, rfl⟩

/-- Fields of a successfully processed child: the node's path extends the
parent path with the entry's name, and its directory flag equals
`path.is_dir()` of the entry — also for the synthetic permission-denied
marker nodes. -/
theorem processEntryG_ok_fields {sh : Bool}
    {buildF : FsNode → String → String →
      Except DiskAnalyzerError (FileNode × Nat)}
    {pp : String} {c : FsNode} {u : FileNode} {k : Nat}
    (HB : ∀ c2 p2 n2 u2 k2, buildF c2 p2 n2 = Except.ok (u2, k2) →
      u2.path = p2 ∧ u2.name = n2 ∧ ∃ mi, metadataOf c2 = Except.ok mi
        ∧ u2.is_dir = mi.isDir)
    (h : processEntryG sh buildF pp c = Except.ok (u, k)) :
    u.path = pp ++ "/" ++ fsName c ∧ u.is_dir = isDirB c := by
  rw [processEntryG] at h
  try dsimp only at h
  by_cases hsh : isDirB c = true ∧ sh = true ∧ isShallowName (fsName c) = true
  · rw [if_pos hsh] at h
    rcases hds : dirSizeOnly c with e | s <;> (try rw [hds] at h) <;>
      (try dsimp only at h)
    · rcases e with m | m | m | m <;> (try dsimp only at h)
      · exact absurd h (by simp)
      · simp only [Except.ok.injEq, Prod.mk.injEq] at h
        rw [← h.1]
        exact ⟨rfl, hsh.1.symm⟩
      · exact absurd h (by simp)
      · exact absurd h (by simp)
    · simp only [Except.ok.injEq, Prod.mk.injEq] at h
      rw [← h.1]
      exact ⟨rfl, hsh.1.symm⟩
  · rw [if_neg hsh] at h
    rcases hbf : buildF c (pp ++ "/" ++ fsName c) (fsName c) with e | r <;>
      (try rw [hbf] at h) <;> (try dsimp only at h)
    · rcases e with m | m | m | m <;> (try dsimp only at h)
      · exact absurd h (by simp)
      · simp only [Except.ok.injEq, Prod.mk.injEq] at h
        rw [← h.1]
        exact ⟨rfl, rfl⟩
      · exact absurd h (by simp)
      · exact absurd h (by simp)
    · rcases r with ⟨u2, k2⟩
      obtain ⟨h1, h2, mi, h3, h4⟩ := HB c _ _ u2 k2 hbf
      simp only [Except.ok.injEq, Prod.mk.injEq] at h
      rw [← h.1]
      exact ⟨h1, h4.trans (metadataOf_isDir h3)⟩

/-- A successful `combineResults` pairs each collected result with the child
node it contributed, in order. -/
theorem combineResults_ok_forall :
    ∀ {l : List (Except DiskAnalyzerError (FileNode × Nat))} {s c : Nat}
      {ns : List FileNode}, combineResults l = Except.ok (s, c, ns) →
      List.Forall₂ (fun r n => ∃ k, r = Except.ok (n, k)) l ns := by
  intro l
  induction l with
  | nil =>
    intro s c ns h
    rw [combineResults] at h
    simp only [Except.ok.injEq, Prod.mk.injEq] at h
    rw [← h.2.2]
    exact List.Forall₂.nil
  | cons r rest ih =>
    intro s c ns h
    rw [combineResults.eq_def] at h
    rcases r with e | ⟨n, k⟩ <;> (try dsimp only at h)
    · exact absurd h (by simp)
    · rcases hcr : combineResults rest with e | ⟨s2, c2, ns2⟩ <;>
        (try rw [hcr] at h) <;> (try dsimp only at h)
      · exact absurd h (by simp)
      · simp only [Except.ok.injEq, Prod.mk.injEq] at h
        rw [← h.2.2]
        exact List.Forall₂.cons ⟨k, rfl⟩ (ih hcr)

/-- Pointwise field agreement transfers along `Forall₂` to a map equality. -/
theorem forall2_map_eq {α β γ : Type} {R : α → β → Prop} {f : α → γ}
    {g : β → γ} (hfg : ∀ a b, R a b → g b = f a) :
    ∀ {l1 : List α} {l2 : List β}, List.Forall₂ R l1 l2 →
      l2.map g = l1.map f := by
  intro l1 l2 h
  induction h with
  | nil => rfl
  | cons hr _ ih => simp only [List.map_cons, ih, hfg _ _ hr]

/-- Claim C9: for every directory the walker visits with an intact listing
(every visited directory is the root of its own `build_tree` call, so
quantifying over all calls covers them all), the children of the returned
node are, in order, exactly the image of the directory's entries sorted with
directories first and byte-lexicographic file-name order within each group,
truncated to the first `MAX_CHILDREN_PER_DIR = 500` entries after sorting;
each child node carries the corresponding entry's path and directory flag, so
sibling order within a directory is deterministic. -/
theorem claim_C9 (node : FsNode) (p nm : String) (d : Nat) (sh : Bool)
    (u : FileNode) (cnt : Nat) (entries : List FsNode)
    (hok : buildTree node p nm d sh = Except.ok (u, cnt))
    (hdir : readDirOf node = Except.ok entries)
    (hd : d < MAX_DEPTH) :
    u.children.map (fun n => (n.is_dir, n.path))
      = ((List.insertionSort entKeyLe entries).take MAX_CHILDREN_PER_DIR).map
          (fun e => (isDirB e, p ++ "/" ++ fsName e))
    ∧ List.Sorted entKeyLe
        ((List.insertionSort entKeyLe entries).take MAX_CHILDREN_PER_DIR)
    ∧ u.children.length ≤ MAX_CHILDREN_PER_DIR := by
  obtain ⟨n2, m2, hnode⟩ : ∃ n2 m2, node = FsNode.dir n2 none entries m2 := by
    cases node with
    | file n s m => exact absurd hdir (by simp [readDirOf])
    | badMeta n e => exact absurd hdir (by simp [readDirOf])
    | dir n le es m =>
      cases le with
      | none =>
        have h2 : es = entries := by simpa [readDirOf] using hdir
        exact ⟨n, m, by rw [h2]⟩
      | some e => exact absurd hdir (by simp [readDirOf])
  subst hnode
  obtain ⟨k, hk⟩ : ∃ k, MAX_DEPTH - d = k + 1 := ⟨MAX_DEPTH - d - 1, by omega⟩
  unfold buildTree at hok
  rw [hk] at hok
  rw [buildTreeAux] at hok
  dsimp only [metadataOf, readDirOf] at hok
  rw [if_pos rfl] at hok
  split at hok
  · exact absurd hok (by simp)
  · rename_i s cnt2 ns heq
    simp only [Except.ok.injEq, Prod.mk.injEq] at hok
    have hchildren : u.children = ns := by rw [← hok.1]; rfl
    have hfa := combineResults_ok_forall heq
    rw [List.forall₂_map_left_iff] at hfa
    refine ⟨?_, ?_, ?_⟩
    · rw [hchildren]
      refine forall2_map_eq ?_ hfa
      intro e n2 hr
      obtain ⟨k2, hk2⟩ := hr
      obtain ⟨h1, h2⟩ := processEntryG_ok_fields
        (fun c2 p2 nm2 u2 kk2 hb => buildTreeAux_ok_fields hb) hk2
      rw [h1, h2]
    · exact (List.sorted_insertionSort entKeyLe entries).sublist
        (List.take_sublist _ _)
    · rw [hchildren]
      have hlen := List.Forall₂.length_eq hfa
      rw [← hlen, List.length_take]
      exact min_le_left _ _

theorem claim_C9_witness :
    w9root.children.map (fun n => (n.is_dir, n.path))
      = ((List.insertionSort entKeyLe w9entries).take MAX_CHILDREN_PER_DIR).map
          (fun e => (isDirB e, "r" ++ "/" ++ fsName e))
    ∧ List.Sorted entKeyLe
        ((List.insertionSort entKeyLe w9entries).take MAX_CHILDREN_PER_DIR)
    ∧ w9root.children.length ≤ MAX_CHILDREN_PER_DIR :=
  claim_C9 w9fs "r" "r" 0 false w9root 2 w9entries rfl rfl (by decide)

/-- Clean entry lists are clean pointwise. -/
theorem cleanFsList_mem {fuel : Nat} : ∀ {es : List FsNode},
    cleanFsList fuel es = true → ∀ c ∈ es, cleanFs fuel c = true := by
  intro es
  induction es with
  | nil => intro _ c hc; exact absurd hc (List.not_mem_nil c)
  | cons a rest ih =>
    intro h c hc
    rw [cleanFsList] at h
    rw [Bool.and_eq_true] at h
    rcases List.mem_cons.mp hc with rfl | hm
    · exact h.1
    · exact ih h.2 c hm

/-- Sum form of `countFilesList`. -/
theorem countFilesList_eq_sum : ∀ (es : List FsNode),
    countFilesList es = (es.map countFiles).sum := by
  intro es
  induction es with
  | nil => rfl
  | cons a rest ih => rw [countFilesList, List.map_cons, List.sum_cons, ih]

/-- When every mapped result is `Ok` with a known count, `combineResults`
succeeds and the total count is the sum of the member counts. -/
theorem combineResults_map_ok
    (pe : FsNode → Except DiskAnalyzerError (FileNode × Nat)) :
    ∀ (cs : List FsNode),
      (∀ c ∈ cs, ∃ u, pe c = Except.ok (u, countFiles c)) →
      ∃ s ns, combineResults (cs.map pe)
        = Except.ok (s, (cs.map countFiles).sum, ns) := by
  intro cs
  induction cs with
  | nil => intro _; exact ⟨0, [], rfl⟩
  | cons a rest ih =>
    intro h
    obtain ⟨u, hu⟩ := h a (List.mem_cons_self _ _)
    obtain ⟨s, ns, hrest⟩ := ih (fun c hc => h c (List.mem_cons_of_mem _ hc))
    refine ⟨u.size + s, u :: ns, ?_⟩
    rw [List.map_cons, combineResults.eq_def]
    dsimp only
    rw [hu]
    dsimp only
    rw [hrest]
    dsimp only
    rw [List.map_cons, List.sum_cons]

/-- On a clean subtree, the walker returns a count equal to the number of
files in the subtree: non-shallow directories — the root included —
contribute nothing to `file_count`. -/
theorem buildTreeAux_count : ∀ (fuel : Nat) (fs : FsNode) (p nm : String),
    cleanFs fuel fs = true →
    ∃ u, buildTreeAux false fuel fs p nm = Except.ok (u, countFiles fs) := by
  intro fuel
  induction fuel with
  | zero =>
    intro fs p nm hclean
    cases fs with
    | file n s m => exact ⟨_, rfl⟩
    | badMeta n e => exact absurd hclean (by rw [cleanFs]; simp)
    | dir n le es m => exact absurd hclean (by rw [cleanFs]; simp)
  | succ k ih =>
    intro fs p nm hclean
    cases fs with
    | file n s m => exact ⟨_, rfl⟩
    | badMeta n e => exact absurd hclean (by rw [cleanFs]; simp)
    | dir n le es m =>
      cases le with
      | some e => exact absurd hclean (by rw [cleanFs]; simp)
      | none =>
        rw [cleanFs, Bool.and_eq_true, decide_eq_true_eq] at hclean
        obtain ⟨hlen, hcleanes⟩ := hclean
        rw [buildTreeAux]
        dsimp only [metadataOf, readDirOf]
        rw [if_pos rfl]
        have hsorted_eq : (List.insertionSort entKeyLe es).take
            MAX_CHILDREN_PER_DIR = List.insertionSort entKeyLe es := by
          refine List.take_of_length_le ?_
          rw [(List.perm_insertionSort entKeyLe es).length_eq]
          exact hlen
        rw [hsorted_eq]
        have hperm : List.Perm (List.insertionSort entKeyLe es) es :=
          List.perm_insertionSort entKeyLe es
        have hok : ∀ c ∈ List.insertionSort entKeyLe es,
            ∃ u, processEntryG false
              (fun c2 p2 n2 => buildTreeAux false k c2 p2 n2) p c
              = Except.ok (u, countFiles c) := by
          intro c hc
          have hcc : cleanFs k c = true :=
            cleanFsList_mem hcleanes c (hperm.subset hc)
          obtain ⟨u, hu⟩ := ih c (p ++ "/" ++ fsName c) (fsName c) hcc
          refine ⟨u, ?_⟩
          rw [processEntryG]
          try dsimp only
          rw [if_neg (by simp)]
          rw [hu]
        obtain ⟨s, ns, hcomb⟩ := combineResults_map_ok _ _ hok
        have hsum : ((List.insertionSort entKeyLe es).map countFiles).sum
            = countFilesList es := by
          rw [countFilesList_eq_sum]
          exact (hperm.map countFiles).sum_eq
        rw [hsum] at hcomb
        rw [hcomb]
        refine ⟨FileNode.mk p nm (0 + s) true m ns, ?_⟩
        simp [countFiles]

/-- Claim C2 counterexample: scanning a directory holding one file visits two
unique filesystem entries (the root directory and the file), yet the returned
`file_count` is 1 — the walker counts only files (its `file_count` starts at
0 for directories, including the root, and no directory is ever added). -/
theorem claim_C2_counterexample :
    scanPathModel c2fs "r" "r" true
      = Except.ok (FileNode.mk "r" "r" 5 true none
          [FileNode.mk "r/a.txt" "a.txt" 5 false none []], 1, 5)
    ∧ (1 : Nat) ≠ 2 := ⟨rfl, by decide⟩

/-- Claim C2 as amended: for every successful walker scan of an error-free
tree within the walker's caps (no directory at the depth cap, at most
`MAX_CHILDREN_PER_DIR` entries per directory) with `shallow_dirs = false`,
the returned `file_count` equals the number of plain files visited;
directories — the root included — are not counted. -/
theorem claim_C2 (fs : FsNode) (p nm : String)
    (hclean : cleanFs MAX_DEPTH fs = true) :
    ∃ root, scanPathModel fs p nm false
      = Except.ok (root, countFiles fs, root.size) := by
  obtain ⟨u, hu⟩ := buildTreeAux_count MAX_DEPTH fs p nm hclean
  refine ⟨u, ?_⟩
  rw [scanPathModel]
  have hbt : buildTree fs p nm 0 false = Except.ok (u, countFiles fs) := hu
  rw [hbt]

theorem claim_C2_witness :
    cleanFs MAX_DEPTH c2fs = true
    ∧ ∃ root, scanPathModel c2fs "r" "r" false
        = Except.ok (root, countFiles c2fs, root.size) :=
  ⟨by decide, claim_C2 c2fs "r" "r" (by decide)⟩

/-- If some member of the result list is an error, `combineResults` is an
error (the sequential loop propagates the first `Err` it reaches). -/
theorem combineResults_error_of_mem :
    ∀ (rs : List (Except DiskAnalyzerError (FileNode × Nat))),
      (∃ r ∈ rs, ∃ e, r = Except.error e) →
      ∃ e, combineResults rs = Except.error e := by
  intro rs
  induction rs with
  | nil =>
    rintro ⟨r, hr, _⟩
    exact absurd hr (List.not_mem_nil r)
  | cons a rest ih =>
    rintro ⟨r, hr, e, he⟩
    rcases List.mem_cons.mp hr with hra | hm
    · subst hra; subst he
      exact ⟨e, rfl⟩
    · cases a with
      | error e2 => exact ⟨e2, rfl⟩
      | ok v =>
        obtain ⟨n, c⟩ := v
        obtain ⟨e3, h3⟩ := ih ⟨r, hm, e, he⟩
        refine ⟨e3, ?_⟩
        rw [combineResults.eq_def]
        dsimp only
        rw [h3]

/-- Claim C4 counterexample: (1) a non-permission I/O error inside the
size-only walk of a shallow directory is silently swallowed
(`if let Ok(size) = dir_size_only(...)`), so the scan succeeds instead of
aborting; (2) a permission-denied metadata read at the scan root aborts the
scan with `PermissionDenied` — there is no parent to attach a marker node to,
so the walk does not continue; (3) a permission-denied listing of a shallow
directory yields `Ok(0)` inside `dir_size_only`, so the child becomes an
ordinary unmarked node (counted as one entry) — its name carries no
`[无权限]` suffix. -/
theorem claim_C4_counterexample :
    scanPathModel c4fs "r" "r" true
      = Except.ok (FileNode.mk "r" "r" 7 true none
          [FileNode.mk "r/node_modules" "node_modules" 7 true none []], 1, 7)
    ∧ scanPathModel (FsNode.badMeta "r" FsErr.permissionDenied) "r" "r" true
      = Except.error (DiskAnalyzerError.permissionDenied "r")
    ∧ processEntry (FsNode.dir "node_modules" (some FsErr.permissionDenied) [] none)
        "r" 0 true
      = Except.ok (FileNode.mk "r/node_modules" "node_modules" 0 true none [], 1)
    ∧ ("node_modules" : String) ≠ "node_modules" ++ " [无权限]" :=
  ⟨rfl, rfl, rfl, by decide⟩

/-- Claim C4 as amended: during a walker scan, (1) a permission-denied
metadata read on a child yields a size-0 marker node suffixed `[无权限]` and
the walk continues; (2) below the depth cap, a permission-denied listing of a
non-shallow-walked directory likewise yields a marker node; (3) with
`shallow_dirs` on, a permission-denied listing of a shallow-named directory
instead yields an ordinary unmarked size-0 directory node counted as one
entry; (4) a non-permission metadata error on a child is an `Io` error;
(5) any child error aborts the parent `build_tree` call; (6) a
permission-denied metadata read at the scan root aborts the scan.  Errors
nested inside a shallow directory's size-only walk are swallowed and abort
nothing (see the counterexample). -/
theorem claim_C4 :
    (∀ (nm p : String) (d : Nat) (sh : Bool),
      processEntry (FsNode.badMeta nm FsErr.permissionDenied) p d sh
        = Except.ok
            (FileNode.mk (p ++ "/" ++ nm) (nm ++ " [无权限]") 0 false none [], 0))
    ∧ (∀ (nm : String) (es : List FsNode) (m : Option Nat) (p : String) (d : Nat),
      d + 1 < MAX_DEPTH →
      processEntry (FsNode.dir nm (some FsErr.permissionDenied) es m) p d false
        = Except.ok
            (FileNode.mk (p ++ "/" ++ nm) (nm ++ " [无权限]") 0 true none [], 0))
    ∧ (∀ (nm : String) (es : List FsNode) (m : Option Nat) (p : String) (d : Nat),
      isShallowName nm = true →
      processEntry (FsNode.dir nm (some FsErr.permissionDenied) es m) p d true
        = Except.ok (FileNode.mk (p ++ "/" ++ nm) nm 0 true m [], 1))
    ∧ (∀ (nm p : String) (d : Nat) (sh : Bool),
      processEntry (FsNode.badMeta nm FsErr.otherErr) p d sh
        = Except.error (DiskAnalyzerError.ioError osErrText))
    ∧ (∀ (nm : String) (es : List FsNode) (m : Option Nat) (p : String) (d : Nat),
      d < MAX_DEPTH →
      (∃ c ∈ (List.insertionSort entKeyLe es).take MAX_CHILDREN_PER_DIR,
        ∃ e, processEntry c p d false = Except.error e) →
      ∃ e2, buildTree (FsNode.dir nm none es m) p nm d false = Except.error e2)
    ∧ (∀ (nm p : String) (sh : Bool),
      scanPathModel (FsNode.badMeta nm FsErr.permissionDenied) p nm sh
        = Except.error (DiskAnalyzerError.permissionDenied p)) := by
  refine ⟨?_, ?_, ?_, ?_, ?_, ?_⟩
  · intro nm p d sh
    rw [processEntry, processEntryG]
    try dsimp only
    rw [if_neg (by simp [isDirB])]
    rw [buildTree]
    cases MAX_DEPTH - (d + 1) with
    | zero => rfl
    | succ k => rfl
  · intro nm es m p d hd
    obtain ⟨k, hk⟩ : ∃ k, MAX_DEPTH - (d + 1) = k + 1 :=
      ⟨MAX_DEPTH - (d + 1) - 1, by omega⟩
    rw [processEntry, processEntryG]
    try dsimp only
    rw [if_neg (by simp)]
    rw [buildTree, hk, buildTreeAux]
    rfl
  · intro nm es m p d h
    rw [processEntry, processEntryG]
    try dsimp only
    rw [if_pos ⟨rfl, rfl, h⟩]
    rfl
  · intro nm p d sh
    rw [processEntry, processEntryG]
    try dsimp only
    rw [if_neg (by simp [isDirB])]
    rw [buildTree]
    cases MAX_DEPTH - (d + 1) with
    | zero => rfl
    | succ k => rfl
  · intro nm es m p d hd hex
    obtain ⟨c, hc, e, hce⟩ := hex
    obtain ⟨k, hk⟩ : ∃ k, MAX_DEPTH - d = k + 1 := ⟨MAX_DEPTH - d - 1, by omega⟩
    have hk2 : k = MAX_DEPTH - (d + 1) := by omega
    rw [buildTree, hk, buildTreeAux]
    dsimp only [metadataOf, readDirOf]
    rw [if_pos rfl]
    have hpe : processEntryG false
        (fun c2 p2 n2 => buildTreeAux false k c2 p2 n2) p c
        = Except.error e := by
      rw [hk2]
      exact hce
    obtain ⟨e2, hcomb⟩ := combineResults_error_of_mem _
      ⟨_, List.mem_map_of_mem _ hc, e, hpe⟩
    refine ⟨e2, ?_⟩
    rw [hcomb]
  · intro nm p sh
    rfl

theorem claim_C4_witness :
    (0 + 1 < MAX_DEPTH
      ∧ processEntry (FsNode.dir "x" (some FsErr.permissionDenied) [] none)
          "r" 0 false
        = Except.ok
            (FileNode.mk ("r" ++ "/" ++ "x") ("x" ++ " [无权限]") 0 true none [],
              0))
    ∧ (isShallowName "target" = true
      ∧ processEntry (FsNode.dir "target" (some FsErr.permissionDenied) [] none)
          "r" 0 true
        = Except.ok
            (FileNode.mk ("r" ++ "/" ++ "target") "target" 0 true none [], 1))
    ∧ (0 < MAX_DEPTH
      ∧ ∃ e2, buildTree
          (FsNode.dir "r" none [FsNode.badMeta "z" FsErr.otherErr] none)
          "r" "r" 0 false = Except.error e2) := by
  refine ⟨⟨by decide, claim_C4.2.1 "x" [] none "r" 0 (by decide)⟩,
    ⟨by decide, claim_C4.2.2.1 "target" [] none "r" 0 (by decide)⟩,
    by decide, claim_C4.2.2.2.2.1 "r" [FsNode.badMeta "z" FsErr.otherErr] none
      "r" 0 (by decide) ⟨FsNode.badMeta "z" FsErr.otherErr, ?_,
        DiskAnalyzerError.ioError osErrText, rfl⟩⟩
  simp [List.insertionSort, List.orderedInsert, MAX_CHILDREN_PER_DIR]

/-- The pop loop leaves exactly the `n` largest elements: on any list it
drops all but the last `n` entries. -/
theorem shrinkHeap_eq_drop (n : Nat) : ∀ (l : List TopFileEntry),
    shrinkHeap n l = l.drop (l.length - n) := by
  intro l
  induction l with
  | nil => simp [shrinkHeap]
  | cons x t ih =>
    rw [shrinkHeap]
    by_cases h : n < (x :: t).length
    · have h2 : n < t.length + 1 := by rw [List.length_cons] at h; exact h
      rw [if_pos h, ih]
      rw [show (x :: t).length - n = (t.length - n) + 1 from by
        rw [List.length_cons]; omega]
      rw [List.drop_succ_cons]
    · have h2 : ¬ n < t.length + 1 := by rw [List.length_cons] at h; exact h
      rw [if_neg h]
      rw [show (x :: t).length - n = 0 from by rw [List.length_cons]; omega]
      rw [List.drop_zero]

/-- Inserting into a suffix of a sorted list and dropping one element is
inserting into the whole list and dropping one more element. -/
theorem orderedInsert_drop_tail (e : TopFileEntry) :
    ∀ (S : List TopFileEntry), S.Sorted heapLe → ∀ (k : Nat),
      (List.orderedInsert heapLe e (S.drop k)).tail
        = (List.orderedInsert heapLe e S).drop (k + 1) := by
  intro S
  induction S with
  | nil =>
    intro _ k
    simp [List.orderedInsert]
  | cons x T ih =>
    intro hs k
    have hsT : T.Sorted heapLe := (List.sorted_cons.mp hs).2
    have hxall : ∀ b ∈ T, heapLe x b := (List.sorted_cons.mp hs).1
    cases k with
    | zero =>
      rw [List.drop_zero, Nat.zero_add, List.drop_one]
    | succ j =>
      rw [List.drop_succ_cons]
      by_cases hex : heapLe e x
      · rw [List.orderedInsert, if_pos hex]
        rw [List.drop_succ_cons, List.drop_succ_cons]
        rcases hD : T.drop j with _ | ⟨y, rest⟩
        · rw [List.orderedInsert]
          rfl
        · have hy : y ∈ T :=
            List.mem_of_mem_drop (by rw [hD]; exact List.mem_cons_self y rest)
          have hey : heapLe e y := IsTrans.trans e x y hex (hxall y hy)
          rw [List.orderedInsert, if_pos hey]
          rfl
      · rw [List.orderedInsert, if_neg hex]
        rw [List.drop_succ_cons]
        exact ih hsT j

/-- The bounded-heap fold keeps exactly the `n` largest entries of the pushed
sequence: it equals the ascending sort of all pushed entries with all but the
last `n` dropped. -/
theorem heapFold (n : Nat) : ∀ (E : List TopFileEntry),
    E.foldl (fun h e => shrinkHeap n (heapPush h e)) []
      = (List.insertionSort heapLe E).drop (E.length - n) := by
  intro E
  induction E using List.reverseRecOn with
  | nil => simp
  | append_singleton P e ih =>
    rw [List.foldl_append, List.foldl_cons, List.foldl_nil, ih]
    have hS : List.insertionSort heapLe (P ++ [e])
        = List.orderedInsert heapLe e (List.insertionSort heapLe P) := by
      refine List.eq_of_perm_of_sorted ?_ (List.sorted_insertionSort heapLe _)
        ((List.sorted_insertionSort heapLe P).orderedInsert e _)
      exact ((List.perm_insertionSort heapLe (P ++ [e])).trans
        ((List.perm_append_singleton e P).trans
          (((List.perm_insertionSort heapLe P).symm.cons e).trans
            (List.perm_orderedInsert heapLe e _).symm)))
    rw [hS, heapPush, shrinkHeap_eq_drop]
    have hlenS : (List.insertionSort heapLe P).length = P.length :=
      (List.perm_insertionSort heapLe P).length_eq
    have hlenOI : ∀ (l : List TopFileEntry),
        (List.orderedInsert heapLe e l).length = l.length + 1 := by
      intro l
      rw [(List.perm_orderedInsert heapLe e l).length_eq, List.length_cons]
    by_cases hn : n ≤ P.length
    · rw [show (List.orderedInsert heapLe e
          ((List.insertionSort heapLe P).drop (P.length - n))).length - n = 1
        from by rw [hlenOI, List.length_drop, hlenS]; omega]
      rw [List.drop_one]
      rw [show (P ++ [e]).length - n = (P.length - n) + 1 from by
        rw [List.length_append, List.length_cons, List.length_nil]; omega]
      exact orderedInsert_drop_tail e (List.insertionSort heapLe P)
        (List.sorted_insertionSort heapLe P) (P.length - n)
    · rw [show (List.orderedInsert heapLe e
          ((List.insertionSort heapLe P).drop (P.length - n))).length - n = 0
        from by rw [hlenOI, List.length_drop, hlenS]; omega]
      rw [show (P ++ [e]).length - n = 0 from by
        rw [List.length_append, List.length_cons, List.length_nil]; omega]
      rw [show P.length - n = 0 from by omega]
      rw [List.drop_zero, List.drop_zero, List.drop_zero]

/-- The enumeration fold is the bounded-heap fold over the kept entries. -/
theorem topScanFold_eq (drive volTrim : String) (n : Nat) :
    ∀ (infos : List FileInfo) (h : List TopFileEntry),
      infos.foldl (topScanStep drive volTrim n) h
        = ((infos.filter (keepInfo drive volTrim)).map (entryOf drive)).foldl
            (fun h2 e => shrinkHeap n (heapPush h2 e)) h := by
  intro infos
  induction infos with
  | nil => intro h; rfl
  | cons i rest ih =>
    intro h
    rw [List.foldl_cons, List.filter_cons]
    by_cases hk : keepInfo drive volTrim i = true
    · rw [if_pos hk, List.map_cons, List.foldl_cons]
      have hstep : topScanStep drive volTrim n h i
          = shrinkHeap n (heapPush h (entryOf drive i)) := by
        rw [keepInfo, Bool.and_eq_true, Bool.not_eq_true'] at hk
        rw [topScanStep, if_neg (by simp [hk.1])]
        dsimp only
        rw [if_neg (by simp [hk.2])]
        rfl
      rw [hstep]
      exact ih _
    · rw [if_neg hk]
      have hstep : topScanStep drive volTrim n h i = h := by
        rw [topScanStep]
        cases hd : i.is_directory with
        | true => rw [if_pos rfl]
        | false =>
          rw [if_neg (by exact Bool.false_ne_true)]
          dsimp only
          cases hp : pathUnderVolumeAscii (normalizeNtfsPath i.path drive)
              volTrim with
          | false => rw [if_pos rfl]
          | true =>
            exact absurd (by
              rw [keepInfo, Bool.and_eq_true, Bool.not_eq_true']
              exact ⟨hd, hp⟩) hk
      rw [hstep]
      exact ih h

/-- `scan_volume_mft_top_files` in closed form: the descending sort of the
last `n` entries of the ascending sort of the kept file entries. -/
theorem scanVolumeMftTopFiles_eq (infos : List FileInfo) (drive : String)
    (n : Nat) :
    scanVolumeMftTopFiles infos drive n
      = List.insertionSort teSizeGe
          ((List.insertionSort heapLe
              ((infos.filter (keepInfo drive (drive ++ ":"))).map
                (entryOf drive))).drop
            (((infos.filter (keepInfo drive (drive ++ ":"))).map
                (entryOf drive)).length - n)) := by
  rw [scanVolumeMftTopFiles]
  try dsimp only
  rw [topScanFold_eq, heapFold]

/-- Claim C6: modelling the volume's files as the enumerated non-directory
records whose normalized path lies under the volume (`F` of them), the top-N
scan returns exactly `min n F` entries, sorted by size descending, each one
built from an enumerated file (never a directory). -/
theorem claim_C6 (infos : List FileInfo) (drive : String) (n : Nat) :
    (scanVolumeMftTopFiles infos drive n).length
        = min n (infos.filter (keepInfo drive (drive ++ ":"))).length
    ∧ List.Sorted teSizeGe (scanVolumeMftTopFiles infos drive n)
    ∧ (∀ e ∈ scanVolumeMftTopFiles infos drive n,
        ∃ i ∈ infos, i.is_directory = false ∧ e = entryOf drive i) := by
  have hq := scanVolumeMftTopFiles_eq infos drive n
  refine ⟨?_, ?_, ?_⟩
  · rw [hq]
    rw [(List.perm_insertionSort teSizeGe _).length_eq, List.length_drop,
      (List.perm_insertionSort heapLe _).length_eq]
    simp only [List.length_map]
    omega
  · rw [hq]
    exact List.sorted_insertionSort teSizeGe _
  · intro e he
    rw [hq] at he
    have he2 := (List.perm_insertionSort teSizeGe _).subset he
    have he3 := List.mem_of_mem_drop he2
    have he4 := (List.perm_insertionSort heapLe _).subset he3
    obtain ⟨i, hi, hei⟩ := List.mem_map.mp he4
    have hif := List.mem_filter.mp hi
    refine ⟨i, hif.1, ?_, hei.symm⟩
    have hk := hif.2
    rw [keepInfo, Bool.and_eq_true, Bool.not_eq_true'] at hk
    exact hk.1

/-- `heapLe` refines size order. -/
theorem heapLe_size_le {a b : TopFileEntry} (h : heapLe a b) :
    a.size ≤ b.size := by
  rcases h with h | ⟨h, _⟩
  · exact Nat.le_of_lt h
  · exact Nat.le_of_eq h

/-- A weakly size-descending list with pairwise-distinct sizes is strictly
size-descending. -/
theorem pairwise_szGt_of_nodup {l : List TopFileEntry}
    (h1 : List.Pairwise teSizeGe l)
    (h2 : (l.map TopFileEntry.size).Nodup) : List.Pairwise szGtT l := by
  have h2p : List.Pairwise (fun a b : TopFileEntry => a.size ≠ b.size) l :=
    List.pairwise_map.mp h2
  exact (h1.and h2p).imp (fun h => Nat.lt_of_le_of_ne h.1 (Ne.symm h.2))

/-- A `heapLe`-ascending list with pairwise-distinct sizes is strictly
size-ascending. -/
theorem pairwise_szLt_of_nodup {l : List TopFileEntry}
    (h1 : List.Pairwise heapLe l)
    (h2 : (l.map TopFileEntry.size).Nodup) : List.Pairwise szLtT l := by
  have h2p : List.Pairwise (fun a b : TopFileEntry => a.size ≠ b.size) l :=
    List.pairwise_map.mp h2
  exact (h1.and h2p).imp (fun h => Nat.lt_of_le_of_ne (heapLe_size_le h.1) h.2)

/-- Taking the first `n` of a reversed list is, up to order, dropping all but
the last `n`. -/
theorem take_reverse_perm {α : Type} (n : Nat) (l : List α) :
    List.Perm (l.reverse.take n) (l.drop (l.length - n)) := by
  by_cases h : n ≤ l.length
  · have hrev : l.reverse
        = (l.drop (l.length - n)).reverse ++ (l.take (l.length - n)).reverse := by
      rw [← List.reverse_append, List.take_append_drop]
    have hlen : (l.drop (l.length - n)).reverse.length = n := by
      rw [List.length_reverse, List.length_drop]
      omega
    rw [hrev, List.take_left' hlen]
    exact List.reverse_perm _
  · rw [List.take_of_length_le (by rw [List.length_reverse]; omega)]
    rw [show l.length - n = 0 from by omega, List.drop_zero]
    exact List.reverse_perm l

/-- The full-scan record collection restricted to files is exactly the
top-files filter applied to the enumeration. -/
theorem records_files_eq (infos : List FileInfo) (drive : String) :
    (recordsOfInfos infos drive).filter (fun r => !r.is_dir)
      = (infos.filter (keepInfo drive (drive ++ ":"))).map (recOf drive) := by
  rw [recordsOfInfos]
  try dsimp only
  induction infos with
  | nil => rfl
  | cons i rest ih =>
    rw [List.filter_cons]
    by_cases hp : pathUnderVolumeAscii (normalizeNtfsPath i.path drive)
        (drive ++ ":") = true
    · rw [if_pos hp, List.map_cons, List.filter_cons, List.filter_cons]
      have hrd : (recOf drive i).is_dir = i.is_directory := rfl
      rw [hrd]
      rw [show keepInfo drive (drive ++ ":") i = !i.is_directory from by
        rw [keepInfo, hp, Bool.and_true]]
      cases hd : i.is_directory with
      | true =>
        rw [if_neg (by decide), if_neg (by decide)]
        exact ih
      | false =>
        rw [if_pos (by decide), if_pos (by decide), List.map_cons, ih]
    · rw [if_neg hp, List.filter_cons]
      rw [if_neg (by
        intro hcon
        rw [keepInfo, Bool.and_eq_true] at hcon
        exact hp hcon.2)]
      exact ih

/-- Core refinement: over any entry list with pairwise-distinct sizes, the
descending sort of the `n` heap survivors equals the first `n` of the
descending size sort of the corresponding records. -/
theorem topn_eq_of_nodup (E : List TopFileEntry) (R : List MftRecord) (n : Nat)
    (hcorr : R.map entryOfRecord = E)
    (hnd : (E.map TopFileEntry.size).Nodup) :
    List.insertionSort teSizeGe
        ((List.insertionSort heapLe E).drop (E.length - n))
      = ((List.insertionSort recSizeGe R).take n).map entryOfRecord := by
  have hSsorted : List.Pairwise heapLe (List.insertionSort heapLe E) :=
    List.sorted_insertionSort heapLe E
  have hSperm := List.perm_insertionSort heapLe E
  have hSnodup : ((List.insertionSort heapLe E).map TopFileEntry.size).Nodup :=
    ((hSperm.map TopFileEntry.size).symm).nodup hnd
  have hSlt : List.Pairwise szLtT (List.insertionSort heapLe E) :=
    pairwise_szLt_of_nodup hSsorted hSnodup
  have hRperm := List.perm_insertionSort recSizeGe R
  have hDperm : List.Perm
      ((List.insertionSort recSizeGe R).map entryOfRecord) E := by
    have h2 := hRperm.map entryOfRecord
    rw [hcorr] at h2
    exact h2
  have hDsorted : List.Pairwise teSizeGe
      ((List.insertionSort recSizeGe R).map entryOfRecord) :=
    List.pairwise_map.mpr
      ((List.sorted_insertionSort recSizeGe R).imp (fun h => h))
  have hDnodup : (((List.insertionSort recSizeGe R).map entryOfRecord).map
      TopFileEntry.size).Nodup :=
    ((hDperm.map TopFileEntry.size).symm).nodup hnd
  have hDgt : List.Pairwise szGtT
      ((List.insertionSort recSizeGe R).map entryOfRecord) :=
    pairwise_szGt_of_nodup hDsorted hDnodup
  have hrevD : ((List.insertionSort recSizeGe R).map entryOfRecord).reverse
      = List.insertionSort heapLe E := by
    refine List.eq_of_perm_of_sorted
      ((List.reverse_perm _).trans (hDperm.trans hSperm.symm)) ?_ hSlt
    exact List.pairwise_reverse.mpr (hDgt.imp (fun h => h))
  have hDrev : (List.insertionSort recSizeGe R).map entryOfRecord
      = (List.insertionSort heapLe E).reverse := by
    rw [← hrevD, List.reverse_reverse]
  have hlenS : (List.insertionSort heapLe E).length = E.length :=
    hSperm.length_eq
  rw [List.map_take, hDrev]
  have hperm : List.Perm
      (List.insertionSort teSizeGe
        ((List.insertionSort heapLe E).drop (E.length - n)))
      ((List.insertionSort heapLe E).reverse.take n) := by
    refine (List.perm_insertionSort teSizeGe _).trans ?_
    have h3 := take_reverse_perm n (List.insertionSort heapLe E)
    rw [hlenS] at h3
    exact h3.symm
  have hAgt : List.Pairwise szGtT (List.insertionSort teSizeGe
      ((List.insertionSort heapLe E).drop (E.length - n))) := by
    refine pairwise_szGt_of_nodup (List.sorted_insertionSort teSizeGe _) ?_
    have h1 := (List.perm_insertionSort teSizeGe
      ((List.insertionSort heapLe E).drop (E.length - n))).map
        TopFileEntry.size
    refine h1.symm.nodup ?_
    rw [List.map_drop]
    exact List.Nodup.sublist (List.drop_sublist _ _) hSnodup
  have hBgt : List.Pairwise szGtT
      ((List.insertionSort heapLe E).reverse.take n) := by
    rw [hDrev.symm]
    exact hDgt.sublist (List.take_sublist _ _)
  exact List.eq_of_perm_of_sorted hperm hAgt hBgt

/-- Claim C7 counterexample: two files of equal size; with `n = 1` the
bounded heap keeps the later-enumerated file (the pop removes the
tuple-lexicographic minimum, tied sizes broken by path), while the full-scan
extraction's stable sort keeps the earlier one — the multisets differ. -/
theorem claim_C7_counterexample :
    scanVolumeMftTopFiles c7infos "C" 1 = [TopFileEntry.mk "C:\\b" 5 none]
    ∧ buildTopFilesFromRecords (recordsOfInfos c7infos "C") 1
        = [TopFileEntry.mk "C:\\a" 5 none]
    ∧ ¬ List.Perm [TopFileEntry.mk "C:\\b" 5 none]
        [TopFileEntry.mk "C:\\a" 5 none] :=
  ⟨rfl, rfl, by decide⟩

/-- Claim C7 as amended: when the kept files' sizes are pairwise distinct,
the bounded-heap top-N selection returns exactly the first `n` entries of
the full-scan extraction over the records collected from the same
enumeration (in particular the same multiset).  With tied sizes the two may
keep different files of the tied size (see the counterexample). -/
theorem claim_C7 (infos : List FileInfo) (drive : String) (n : Nat)
    (hnodup : ((infos.filter (keepInfo drive (drive ++ ":"))).map
        FileInfo.size).Nodup) :
    scanVolumeMftTopFiles infos drive n
      = buildTopFilesFromRecords (recordsOfInfos infos drive) n := by
  rw [scanVolumeMftTopFiles_eq]
  have hrhs : buildTopFilesFromRecords (recordsOfInfos infos drive) n
      = ((List.insertionSort recSizeGe
            ((infos.filter (keepInfo drive (drive ++ ":"))).map
              (recOf drive))).take n).map entryOfRecord := by
    rw [buildTopFilesFromRecords]
    try dsimp only
    rw [records_files_eq]
  rw [hrhs]
  refine topn_eq_of_nodup _ _ n ?_ ?_
  · rw [List.map_map]
    exact List.map_congr_left (fun i _ => rfl)
  · rw [show ((infos.filter (keepInfo drive (drive ++ ":"))).map
          (entryOf drive)).map TopFileEntry.size
        = (infos.filter (keepInfo drive (drive ++ ":"))).map FileInfo.size
      from by rw [List.map_map]; exact List.map_congr_left (fun i _ => rfl)]
    exact hnodup

theorem claim_C7_witness :
    ((w7infos.filter (keepInfo "C" ("C" ++ ":"))).map FileInfo.size).Nodup
    ∧ scanVolumeMftTopFiles w7infos "C" 2
        = buildTopFilesFromRecords (recordsOfInfos w7infos "C") 2 :=
  ⟨by decide, claim_C7 w7infos "C" 2 (by decide)⟩

end AiDisk
